import Mathlib

/-!
Verification development for the PDM property normalization & override engine.

The Python source is shallowly embedded: Python dicts become association
lists with insertion-order-preserving upsert (`upsert`), SQLite tables become
Lean lists in insertion order (SELECT ... WHERE = `List.filter`,
fetchone = `List.find?`), and the fixed regular expressions of the source are
embedded as executable scanners over `List Char`.
-/

/-- Lookup in an association list; models Python `dict.get` /
`dict[k]` presence. First binding wins (there is at most one binding per key
in all maps built by `upsert`). -/
def alookup {α β : Type} [DecidableEq α] (k : α) : List (α × β) → Option β
  | [] => none
  | (k', v) :: rest => if k' = k then some v else alookup k rest

/-- The keys of an association list, in order. -/
def akeys {α β : Type} (m : List (α × β)) : List α := m.map Prod.fst

/-- Models Python `d[k] = v` on an insertion-ordered dict: replace the value
in place if the key is present, else append the new binding at the end. -/
def upsert {α β : Type} [DecidableEq α] (k : α) (v : β) : List (α × β) → List (α × β)
  | [] => [(k, v)]
  | (k', v') :: rest => if k' = k then (k, v) :: rest else (k', v') :: upsert k v rest

/-- Models a sequence of Python dict assignments `d[k] = v`, one per pair,
in list order (e.g. the body of `dict.update`). -/
def foldUpserts {α β : Type} [DecidableEq α] (ps : List (α × β)) (m : List (α × β)) :
    List (α × β) :=
  ps.foldl (fun acc p => upsert p.1 p.2 acc) m

theorem alookup_upsert_self {α β : Type} [DecidableEq α] (k : α) (v : β)
    (m : List (α × β)) : alookup k (upsert k v m) = some v := by
  induction m with
  | nil => simp [upsert, alookup]
  | cons p rest ih =>
    obtain ⟨k', v'⟩ := p
    by_cases h : k' = k
    · simp [upsert, h, alookup]
    · simp [upsert, h, alookup, ih]

theorem akeys_cons {α β : Type} (p : α × β) (m : List (α × β)) :
    akeys (p :: m) = p.1 :: akeys m := rfl

theorem mem_akeys_cons {α β : Type} {k : α} {p : α × β} {m : List (α × β)} :
    k ∈ akeys (p :: m) ↔ k = p.1 ∨ k ∈ akeys m := by
  rw [akeys_cons, List.mem_cons]

theorem alookup_upsert_ne {α β : Type} [DecidableEq α] {k k' : α} (v : β)
    (m : List (α × β)) (h : k' ≠ k) :
    alookup k (upsert k' v m) = alookup k m := by
  induction m with
  | nil => simp [upsert, alookup, h]
  | cons p rest ih =>
    obtain ⟨k₀, v₀⟩ := p
    by_cases h0 : k₀ = k'
    · subst h0
      simp [upsert, alookup, h, Ne.symm h]
    · by_cases h1 : k₀ = k
      · simp [upsert, alookup, h0, h1, Ne.symm h]
      · simp [upsert, alookup, h0, h1, ih]

theorem akeys_upsert_of_mem {α β : Type} [DecidableEq α] {k : α} (v : β)
    {m : List (α × β)} (h : k ∈ akeys m) : akeys (upsert k v m) = akeys m := by
  induction m with
  | nil => simp [akeys] at h
  | cons p rest ih =>
    obtain ⟨k₀, v₀⟩ := p
    by_cases h0 : k₀ = k
    · simp [upsert, h0, akeys]
    · have hmem : k ∈ akeys rest := by
        rcases mem_akeys_cons.mp h with h | h
        · exact absurd h.symm h0
        · exact h
      show akeys (if k₀ = k then (k, v) :: rest else (k₀, v₀) :: upsert k v rest)
          = akeys ((k₀, v₀) :: rest)
      rw [if_neg h0, akeys_cons, akeys_cons, ih hmem]

theorem alookup_eq_none_of_not_mem_akeys {α β : Type} [DecidableEq α] {k : α}
    {m : List (α × β)} (h : k ∉ akeys m) : alookup k m = none := by
  induction m with
  | nil => rfl
  | cons p rest ih =>
    obtain ⟨k₀, v₀⟩ := p
    have h1 : ¬ k = k₀ := fun he => h (mem_akeys_cons.mpr (Or.inl he))
    have h2 : k ∉ akeys rest := fun he => h (mem_akeys_cons.mpr (Or.inr he))
    have h1' : ¬ k₀ = k := fun he => h1 he.symm
    simp [alookup, h1', ih h2]

theorem mem_akeys_of_alookup_eq_some {α β : Type} [DecidableEq α] {k : α} {v : β}
    {m : List (α × β)} (h : alookup k m = some v) : k ∈ akeys m := by
  by_contra hk
  rw [alookup_eq_none_of_not_mem_akeys hk] at h
  exact Option.noConfusion h

theorem alookup_foldUpserts_not_mem {α β : Type} [DecidableEq α] {k : α}
    {ps : List (α × β)} (m : List (α × β)) (h : ∀ p ∈ ps, p.1 ≠ k) :
    alookup k (foldUpserts ps m) = alookup k m := by
  induction ps generalizing m with
  | nil => rfl
  | cons p rest ih =>
    have hstep : alookup k (upsert p.1 p.2 m) = alookup k m :=
      alookup_upsert_ne _ _ (h p (List.mem_cons_self _ _))
    calc alookup k (foldUpserts (p :: rest) m)
        = alookup k (foldUpserts rest (upsert p.1 p.2 m)) := rfl
      _ = alookup k (upsert p.1 p.2 m) :=
          ih _ (fun q hq => h q (List.mem_cons_of_mem _ hq))
      _ = alookup k m := hstep

theorem alookup_foldUpserts_unique {α β : Type} [DecidableEq α] {k : α} {v : β}
    {ps : List (α × β)} (m : List (α × β))
    (hmem : (k, v) ∈ ps) (huniq : ∀ p ∈ ps, p.1 = k → p.2 = v) :
    alookup k (foldUpserts ps m) = some v := by
  induction ps generalizing m with
  | nil => cases hmem
  | cons p rest ih =>
    by_cases hrest : ∃ q ∈ rest, q.1 = k
    · obtain ⟨q, hq, hqk⟩ := hrest
      have hqv : q.2 = v := huniq q (List.mem_cons_of_mem _ hq) hqk
      have : (k, v) ∈ rest := by
        have : q = (k, v) := Prod.ext hqk hqv
        rwa [this] at hq
      exact ih _ this (fun q hq hqk => huniq q (List.mem_cons_of_mem _ hq) hqk)
    · push_neg at hrest
      have hp : p = (k, v) := by
        rcases List.mem_cons.mp hmem with h | h
        · exact h.symm
        · exact absurd rfl (hrest (k, v) h)
      subst hp
      calc alookup k (foldUpserts ((k, v) :: rest) m)
          = alookup k (foldUpserts rest (upsert k v m)) := rfl
        _ = alookup k (upsert k v m) := alookup_foldUpserts_not_mem _ hrest
        _ = some v := alookup_upsert_self _ _ _

theorem upsert_eq_append_of_not_mem {α β : Type} [DecidableEq α] {k : α} (v : β)
    {m : List (α × β)} (h : k ∉ akeys m) : upsert k v m = m ++ [(k, v)] := by
  induction m with
  | nil => rfl
  | cons p rest ih =>
    obtain ⟨k₀, v₀⟩ := p
    have h1 : ¬ k₀ = k := fun he => h (mem_akeys_cons.mpr (Or.inl he.symm))
    have h2 : k ∉ akeys rest := fun he => h (mem_akeys_cons.mpr (Or.inr he))
    simp [upsert, h1, ih h2]

theorem akeys_append {α β : Type} (m n : List (α × β)) :
    akeys (m ++ n) = akeys m ++ akeys n := by
  simp [akeys]

theorem foldUpserts_eq_append {α β : Type} [DecidableEq α]
    {ps : List (α × β)} (m : List (α × β))
    (hnodup : (akeys ps).Nodup) (hdisj : ∀ k ∈ akeys ps, k ∉ akeys m) :
    foldUpserts ps m = m ++ ps := by
  induction ps generalizing m with
  | nil => simp [foldUpserts]
  | cons p rest ih =>
    obtain ⟨k, v⟩ := p
    have hk : k ∉ akeys m := hdisj k (mem_akeys_cons.mpr (Or.inl rfl))
    have hstep : upsert k v m = m ++ [(k, v)] := upsert_eq_append_of_not_mem v hk
    rw [akeys_cons] at hnodup
    have hnodup' : (akeys rest).Nodup := hnodup.of_cons
    have hknotrest : k ∉ akeys rest := (List.nodup_cons.mp hnodup).1
    have hdisj' : ∀ k' ∈ akeys rest, k' ∉ akeys (m ++ [(k, v)]) := by
      intro k' hk' hmem
      rw [akeys_append] at hmem
      rcases List.mem_append.mp hmem with h | h
      · exact hdisj k' (mem_akeys_cons.mpr (Or.inr hk')) h
      · have : k' = k := by simpa [akeys] using h
        exact hknotrest (this ▸ hk')
    calc foldUpserts ((k, v) :: rest) m
        = foldUpserts rest (upsert k v m) := rfl
      _ = foldUpserts rest (m ++ [(k, v)]) := by rw [hstep]
      _ = (m ++ [(k, v)]) ++ rest := ih _ hnodup' hdisj'
      _ = m ++ ((k, v) :: rest) := by simp

theorem foldUpserts_nil_of_nodup {α β : Type} [DecidableEq α]
    {ps : List (α × β)} (hnodup : (akeys ps).Nodup) :
    foldUpserts ps [] = ps := by
  have := foldUpserts_eq_append ([] : List (α × β)) hnodup (by simp [akeys])
  simpa using this

/-!
## Data model

Embedding of the SQLite schema (`database_manager.initialize_database`):
tables are lists kept in insertion order; `SELECT ... WHERE col = ?`
returns the table filtered in order, `fetchone` returns the first match.
-/

/-- A row of the `Products` table. Field values are stored as optional text;
the numeric affinity of `price`/`stock` is not observable by any verified
property. -/
structure Product where
  articleId : String
  name : Option String
  price : Option String
  stock : Option String
  category : Option String
deriving DecidableEq, Repr

/-- A row of the `Properties` table:
(article_id, property_name, property_value, property_unit, language). -/
structure PropRow where
  articleId : String
  propName : String
  propValue : String
  propUnit : Option String
  language : String
deriving DecidableEq, Repr

/-- A row of the `PropertyOverrides` (scopeKey = article_id) or
`CategoryPropertyOverrides` (scopeKey = category) table. -/
structure OverrideRow where
  scopeKey : String
  propName : String
  value : String
  language : String
deriving DecidableEq, Repr

/-- The database state, restricted to the tables the override resolver and
the import pipeline touch. -/
structure DB where
  products : List Product
  properties : List PropRow
  propertyOverrides : List OverrideRow
  categoryOverrides : List OverrideRow
deriving DecidableEq, Repr

/-- Python truthiness of an optional string cell (`if x:`):
`None` and the empty string are falsy. -/
def pyTruthy : Option String → Bool
  | some s => s ≠ ""
  | none => false

/-- The article's category as both `PropertyManager.apply_overrides`
(property_manager.py lines 130-132) and
`DatabaseManager.get_property_overrides` (database_manager.py lines 306-311)
compute it: `SELECT category FROM Products WHERE article_id = ?`, fetchone,
then `result[0] if result and result[0] else None`. -/
def articleCategory (db : DB) (article_id : String) : Option String :=
  match db.products.find? (fun p => p.articleId = article_id) with
  | some p => if pyTruthy p.category then p.category else none
  | none => none

/-- `DatabaseManager.get_property_overrides` (database_manager.py
lines 296-320): the article-level overrides for `article_id` and the
category-level overrides for the article's category (empty when the
article has no truthy category). -/
def get_property_overrides (db : DB) (article_id : String) :
    List OverrideRow × List OverrideRow :=
  let article_overrides := db.propertyOverrides.filter (fun r => r.scopeKey = article_id)
  let category_overrides :=
    match articleCategory db article_id with
    | some c => db.categoryOverrides.filter (fun r => r.scopeKey = c)
    | none => []
  (article_overrides, category_overrides)

/-- Rendering of a stored property value with its optional unit
(property_manager.py lines 87-97 / database_manager.py lines 350-362):
`f"{prop_value} {prop_unit}"` when the unit is truthy, else the bare value. -/
def formatPropValue (value : String) (unit : Option String) : String :=
  if pyTruthy unit then value ++ " " ++ (unit.getD "") else value

/-- The per-language property dictionaries (`de_properties`,
`en_properties`) built during resolution. -/
structure LangMaps where
  de : List (String × String)
  en : List (String × String)
deriving DecidableEq, Repr

/-- Projection used to state theorems uniformly over the two supported
languages. -/
def langMap (m : LangMaps) (lang : String) : List (String × String) :=
  if lang = "de" then m.de else m.en

/-- The base layer: regular properties sorted into the two language
dictionaries (property_manager.py lines 86-97, database_manager.py
lines 350-362). -/
def addBaseProps (props : List PropRow) (m : LangMaps) : LangMaps :=
  props.foldl
    (fun m r =>
      if r.language = "de" then
        { m with de := upsert r.propName (formatPropValue r.propValue r.propUnit) m.de }
      else if r.language = "en" then
        { m with en := upsert r.propName (formatPropValue r.propValue r.propUnit) m.en }
      else m)
    m

/-- Unconditional override application on the language dictionaries
(property_manager.py lines 99-111 for category overrides, and lines 106-111 /
database_manager.py lines 371-376 for article overrides): every override
row is written into the dictionary of its language. -/
def applyOverrideRows (ovs : List OverrideRow) (m : LangMaps) : LangMaps :=
  ovs.foldl
    (fun m r =>
      if r.language = "de" then { m with de := upsert r.propName r.value m.de }
      else if r.language = "en" then { m with en := upsert r.propName r.value m.en }
      else m)
    m

/-- Guarded override application on the language dictionaries
(database_manager.py lines 364-369, export path only): a category override
is written only when its property name is already a key of the dictionary
of its language (`if lang == 'de' and prop_name in de_properties`). -/
def applyOverrideRowsGuarded (ovs : List OverrideRow) (m : LangMaps) : LangMaps :=
  ovs.foldl
    (fun m r =>
      if r.language = "de" ∧ r.propName ∈ akeys m.de then
        { m with de := upsert r.propName r.value m.de }
      else if r.language = "en" ∧ r.propName ∈ akeys m.en then
        { m with en := upsert r.propName r.value m.en }
      else m)
    m

/-- `PropertyManager.get_properties_for_product` (property_manager.py
lines 66-113): base properties, then category overrides (unconditionally),
then article overrides. -/
def get_properties_for_product (db : DB) (article_id : String) : LangMaps :=
  let properties := db.properties.filter (fun r => r.articleId = article_id)
  let ov := get_property_overrides db article_id
  let m := addBaseProps properties ⟨[], []⟩
  let m := applyOverrideRows ov.2 m
  applyOverrideRows ov.1 m

/-- The per-product override resolution inside `export_products_csv`
(database_manager.py lines 337-376): base properties, then category
overrides guarded on key presence, then article overrides unconditionally. -/
def exportResolveProps (db : DB) (article_id : String) : LangMaps :=
  let properties := db.properties.filter (fun r => r.articleId = article_id)
  let ov := get_property_overrides db article_id
  let m := addBaseProps properties ⟨[], []⟩
  let m := applyOverrideRowsGuarded ov.2 m
  applyOverrideRows ov.1 m

/-- `PropertyManager.apply_overrides` (property_manager.py lines 115-163):
the argument dictionary is keyed by `(property_name, language)` pairs;
category overrides for the article's category are applied only to keys
already present, then article overrides are applied unconditionally. -/
def guardedCatStep (acc : List ((String × String) × String)) (r : OverrideRow) :
    List ((String × String) × String) :=
  if (r.propName, r.language) ∈ akeys acc then
    upsert (r.propName, r.language) r.value acc
  else acc

def apply_overrides (db : DB) (article_id : String)
    (properties : List ((String × String) × String)) :
    List ((String × String) × String) :=
  let overridden :=
    match articleCategory db article_id with
    | some c =>
      (db.categoryOverrides.filter (fun r => r.scopeKey = c)).foldl
        guardedCatStep properties
    | none => properties
  (db.propertyOverrides.filter (fun r => r.scopeKey = article_id)).foldl
    (fun acc r => upsert (r.propName, r.language) r.value acc)
    overridden

/-- The HTML property table renderer of the export path
(database_manager.py lines 384-393). -/
def renderHtmlTable (m : List (String × String)) : String :=
  "<table>"
    ++ (m.foldl
          (fun acc p => acc ++ "<tr><td>" ++ p.1 ++ "</td><td>" ++ p.2 ++ "</td></tr>")
          "")
    ++ "</table>"

/-!
## Override precedence (claims C1, C2)
-/

theorem foldOverridePairs (L : List OverrideRow) (m : List ((String × String) × String)) :
    L.foldl (fun acc r => upsert (r.propName, r.language) r.value acc) m
      = foldUpserts (L.map (fun r => ((r.propName, r.language), r.value))) m := by
  rw [foldUpserts, List.foldl_map]

theorem applyOverrideRows_cons (r : OverrideRow) (rest : List OverrideRow) (m : LangMaps) :
    applyOverrideRows (r :: rest) m =
      applyOverrideRows rest
        (if r.language = "de" then { m with de := upsert r.propName r.value m.de }
         else if r.language = "en" then { m with en := upsert r.propName r.value m.en }
         else m) := rfl

theorem applyOverrideRows_de (ovs : List OverrideRow) (m : LangMaps) :
    (applyOverrideRows ovs m).de =
      foldUpserts
        ((ovs.filter (fun r => r.language = "de")).map (fun r => (r.propName, r.value)))
        m.de := by
  induction ovs generalizing m with
  | nil => rfl
  | cons r rest ih =>
    by_cases hde : r.language = "de"
    · rw [applyOverrideRows_cons, if_pos hde, ih,
        List.filter_cons_of_pos (by simp [hde]), List.map_cons]
      rfl
    · by_cases hen : r.language = "en"
      · rw [applyOverrideRows_cons, if_neg hde, if_pos hen, ih,
          List.filter_cons_of_neg (by simp [hde])]
      · rw [applyOverrideRows_cons, if_neg hde, if_neg hen, ih,
          List.filter_cons_of_neg (by simp [hde])]

theorem applyOverrideRows_en (ovs : List OverrideRow) (m : LangMaps) :
    (applyOverrideRows ovs m).en =
      foldUpserts
        ((ovs.filter (fun r => r.language = "en")).map (fun r => (r.propName, r.value)))
        m.en := by
  induction ovs generalizing m with
  | nil => rfl
  | cons r rest ih =>
    by_cases hde : r.language = "de"
    · have hen : ¬ r.language = "en" := by rw [hde]; decide
      rw [applyOverrideRows_cons, if_pos hde, ih,
        List.filter_cons_of_neg (by simp [hen])]
    · by_cases hen : r.language = "en"
      · rw [applyOverrideRows_cons, if_neg hde, if_pos hen, ih,
          List.filter_cons_of_pos (by simp [hen]), List.map_cons]
        rfl
      · rw [applyOverrideRows_cons, if_neg hde, if_neg hen, ih,
          List.filter_cons_of_neg (by simp [hen])]

theorem alookup_applyOverrideRows_lang (ovs : List OverrideRow) (m : LangMaps)
    {p v l : String} (hl : l = "de" ∨ l = "en")
    (hmem : ∃ r ∈ ovs, r.propName = p ∧ r.language = l ∧ r.value = v)
    (huniq : ∀ r ∈ ovs, r.propName = p → r.language = l → r.value = v) :
    alookup p (langMap (applyOverrideRows ovs m) l) = some v := by
  obtain ⟨r, hr, hrp, hrl, hrv⟩ := hmem
  have hmem' : (p, v) ∈
      (ovs.filter (fun r => r.language = l)).map (fun r => (r.propName, r.value)) := by
    refine List.mem_map.mpr ⟨r, List.mem_filter.mpr ⟨hr, by simp [hrl]⟩, by simp [hrp, hrv]⟩
  have huniq' : ∀ q ∈
      (ovs.filter (fun r => r.language = l)).map (fun r => (r.propName, r.value)),
      q.1 = p → q.2 = v := by
    intro q hq hq1
    obtain ⟨r', hr', hq'⟩ := List.mem_map.mp hq
    obtain ⟨hr'mem, hr'l⟩ := List.mem_filter.mp hr'
    subst hq'
    simp only at hq1
    exact huniq r' hr'mem hq1 (by simpa using hr'l)
  rcases hl with hl | hl
  · subst hl
    rw [langMap, if_pos rfl, applyOverrideRows_de]
    exact alookup_foldUpserts_unique _ hmem' huniq'
  · subst hl
    rw [langMap, if_neg (by decide)]
    rw [applyOverrideRows_en]
    exact alookup_foldUpserts_unique _ hmem' huniq'

/-- C1: with both a category override (for the article's category) and an
article override defined for the same (property, language), every resolution
path — `apply_overrides`, `get_properties_for_product`, and the export
path's per-product resolution — yields the article override's value. -/
theorem article_override_beats_category_and_raw (db : DB)
    (article_id p l vArt vCat c : String)
    (props : List ((String × String) × String))
    (hcat : articleCategory db article_id = some c)
    (hcatov : (⟨c, p, vCat, l⟩ : OverrideRow) ∈ db.categoryOverrides)
    (hartov : (⟨article_id, p, vArt, l⟩ : OverrideRow) ∈ db.propertyOverrides)
    (huniq : ∀ r ∈ db.propertyOverrides,
      r.scopeKey = article_id → r.propName = p → r.language = l → r.value = vArt) :
    alookup (p, l) (apply_overrides db article_id props) = some vArt
    ∧ (l = "de" ∨ l = "en" →
        alookup p (langMap (get_properties_for_product db article_id) l) = some vArt
        ∧ alookup p (langMap (exportResolveProps db article_id) l) = some vArt) := by
  have hfiltmem : (⟨article_id, p, vArt, l⟩ : OverrideRow) ∈
      db.propertyOverrides.filter (fun r => r.scopeKey = article_id) :=
    List.mem_filter.mpr ⟨hartov, by simp⟩
  have hfiltuniq : ∀ r ∈ db.propertyOverrides.filter (fun r => r.scopeKey = article_id),
      r.propName = p → r.language = l → r.value = vArt := by
    intro r hr hrp hrl
    obtain ⟨hrmem, hrscope⟩ := List.mem_filter.mp hr
    exact huniq r hrmem (by simpa using hrscope) hrp hrl
  constructor
  · show alookup (p, l)
      ((db.propertyOverrides.filter (fun r => r.scopeKey = article_id)).foldl
        (fun acc r => upsert (r.propName, r.language) r.value acc) _) = some vArt
    rw [foldOverridePairs]
    refine alookup_foldUpserts_unique _ ?_ ?_
    · exact List.mem_map.mpr ⟨_, hfiltmem, rfl⟩
    · intro q hq hq1
      obtain ⟨r', hr', hq'⟩ := List.mem_map.mp hq
      subst hq'
      simp only [Prod.mk.injEq] at hq1
      exact hfiltuniq r' hr' hq1.1 hq1.2
  · intro hl
    have hmem' : ∃ r ∈ db.propertyOverrides.filter (fun r => r.scopeKey = article_id),
        r.propName = p ∧ r.language = l ∧ r.value = vArt :=
      ⟨_, hfiltmem, rfl, rfl, rfl⟩
    constructor
    · show alookup p (langMap (applyOverrideRows
        (get_property_overrides db article_id).1 _) l) = some vArt
      exact alookup_applyOverrideRows_lang _ _ hl hmem' hfiltuniq
    · show alookup p (langMap (applyOverrideRows
        (get_property_overrides db article_id).1 _) l) = some vArt
      exact alookup_applyOverrideRows_lang _ _ hl hmem' hfiltuniq

/-- The database of the spec's worked example: article A1 in CategoryX with
base property color=Rot (de), category override Blue, article override
Green. -/
def exampleDB : DB :=
  { products := [⟨"A1", none, none, none, some "CategoryX"⟩]
    properties := [⟨"A1", "color", "Rot", none, "de"⟩]
    propertyOverrides := [⟨"A1", "color", "Green", "de"⟩]
    categoryOverrides := [⟨"CategoryX", "color", "Blue", "de"⟩] }

/-- Witness for C1 at the spec's worked example: the resolved value is the
article override "Green" on all three paths. -/
theorem article_override_beats_category_and_raw_witness :
    alookup ("color", "de")
        (apply_overrides exampleDB "A1" [(("color", "de"), "Rot")]) = some "Green"
    ∧ alookup "color" (langMap (get_properties_for_product exampleDB "A1") "de")
        = some "Green"
    ∧ alookup "color" (langMap (exportResolveProps exampleDB "A1") "de")
        = some "Green" := by
  have h := article_override_beats_category_and_raw exampleDB "A1" "color" "de"
    "Green" "Blue" "CategoryX" [(("color", "de"), "Rot")]
    (by decide) (by decide) (by decide) (by decide)
  exact ⟨h.1, (h.2 (Or.inl rfl)).1, (h.2 (Or.inl rfl)).2⟩

/-- A database whose only content is a category override for a property that
has no base value at all: article A1 in category C, no stored properties. -/
def catOnlyDB : DB :=
  { products := [⟨"A1", none, none, none, some "C"⟩]
    properties := []
    propertyOverrides := []
    categoryOverrides := [⟨"C", "color", "Blue", "de"⟩] }

/-- The same database without the category override. -/
def catOnlyDBNoOverride : DB :=
  { products := [⟨"A1", none, none, none, some "C"⟩]
    properties := []
    propertyOverrides := []
    categoryOverrides := [] }

/-- Counterexample to C2 as stated: in `get_properties_for_product` a
category override whose (property_name, language) key is absent from the base
set is NOT ignored — it manufactures the new key "color" in the resolved
result, so it does have an effect on that resolution path. -/
theorem category_override_manufactures_key_counterexample :
    (get_properties_for_product catOnlyDB "A1").de = [("color", "Blue")]
    ∧ (get_properties_for_product catOnlyDBNoOverride "A1").de = [] := by
  constructor <;> rfl

theorem akeys_guardedCatStep (acc : List ((String × String) × String))
    (r : OverrideRow) : akeys (guardedCatStep acc r) = akeys acc := by
  unfold guardedCatStep
  by_cases h : (r.propName, r.language) ∈ akeys acc
  · rw [if_pos h, akeys_upsert_of_mem _ h]
  · rw [if_neg h]

theorem akeys_guardedCatFold (L : List OverrideRow)
    (acc : List ((String × String) × String)) :
    akeys (L.foldl guardedCatStep acc) = akeys acc := by
  induction L generalizing acc with
  | nil => rfl
  | cons r rest ih =>
    rw [List.foldl_cons, ih, akeys_guardedCatStep]

theorem guardedCatFold_skip (r : OverrideRow) (L1 L2 : List OverrideRow)
    (acc : List ((String × String) × String))
    (h : (r.propName, r.language) ∉ akeys acc) :
    (L1 ++ r :: L2).foldl guardedCatStep acc = (L1 ++ L2).foldl guardedCatStep acc := by
  rw [List.foldl_append, List.foldl_append, List.foldl_cons]
  have hk : (r.propName, r.language) ∉ akeys (L1.foldl guardedCatStep acc) := by
    rw [akeys_guardedCatFold]; exact h
  rw [show guardedCatStep (L1.foldl guardedCatStep acc) r
      = L1.foldl guardedCatStep acc from by rw [guardedCatStep, if_neg hk]]

theorem applyOverrideRowsGuarded_cons (r : OverrideRow) (rest : List OverrideRow)
    (m : LangMaps) :
    applyOverrideRowsGuarded (r :: rest) m =
      applyOverrideRowsGuarded rest
        (if r.language = "de" ∧ r.propName ∈ akeys m.de then
          { m with de := upsert r.propName r.value m.de }
         else if r.language = "en" ∧ r.propName ∈ akeys m.en then
          { m with en := upsert r.propName r.value m.en }
         else m) := rfl

theorem akeys_applyOverrideRowsGuarded (L : List OverrideRow) (m : LangMaps) :
    akeys (applyOverrideRowsGuarded L m).de = akeys m.de
    ∧ akeys (applyOverrideRowsGuarded L m).en = akeys m.en := by
  induction L generalizing m with
  | nil => exact ⟨rfl, rfl⟩
  | cons r rest ih =>
    rw [applyOverrideRowsGuarded_cons]
    by_cases hde : r.language = "de" ∧ r.propName ∈ akeys m.de
    · rw [if_pos hde]
      refine ⟨?_, (ih _).2⟩
      rw [(ih _).1]
      exact akeys_upsert_of_mem _ hde.2
    · rw [if_neg hde]
      by_cases hen : r.language = "en" ∧ r.propName ∈ akeys m.en
      · rw [if_pos hen]
        refine ⟨(ih _).1, ?_⟩
        rw [(ih _).2]
        exact akeys_upsert_of_mem _ hen.2
      · rw [if_neg hen]
        exact ih m

theorem applyOverrideRowsGuarded_append (L1 L2 : List OverrideRow) (m : LangMaps) :
    applyOverrideRowsGuarded (L1 ++ L2) m =
      applyOverrideRowsGuarded L2 (applyOverrideRowsGuarded L1 m) :=
  List.foldl_append ..

theorem applyOverrideRowsGuarded_skip (r : OverrideRow) (L1 L2 : List OverrideRow)
    (m : LangMaps)
    (hde : r.language = "de" → r.propName ∉ akeys m.de)
    (hen : r.language = "en" → r.propName ∉ akeys m.en) :
    applyOverrideRowsGuarded (L1 ++ r :: L2) m =
      applyOverrideRowsGuarded (L1 ++ L2) m := by
  rw [applyOverrideRowsGuarded_append, applyOverrideRowsGuarded_append,
    applyOverrideRowsGuarded_cons]
  have h1 : ¬ (r.language = "de"
      ∧ r.propName ∈ akeys (applyOverrideRowsGuarded L1 m).de) := by
    rintro ⟨h, hm⟩
    exact hde h ((akeys_applyOverrideRowsGuarded L1 m).1 ▸ hm)
  have h2 : ¬ (r.language = "en"
      ∧ r.propName ∈ akeys (applyOverrideRowsGuarded L1 m).en) := by
    rintro ⟨h, hm⟩
    exact hen h ((akeys_applyOverrideRowsGuarded L1 m).2 ▸ hm)
  rw [if_neg h1, if_neg h2]

theorem alookup_applyOverrideRows_lang_skip (ovs : List OverrideRow) (m : LangMaps)
    {p l : String} (hl : l = "de" ∨ l = "en")
    (h : ∀ r ∈ ovs, ¬(r.propName = p ∧ r.language = l)) :
    alookup p (langMap (applyOverrideRows ovs m) l) = alookup p (langMap m l) := by
  have key : ∀ (ll : String), l = ll →
      ∀ q ∈ (ovs.filter (fun r => r.language = ll)).map (fun r => (r.propName, r.value)),
        q.1 ≠ p := by
    intro ll hll q hq
    obtain ⟨r', hr', hq'⟩ := List.mem_map.mp hq
    obtain ⟨hr'mem, hr'l⟩ := List.mem_filter.mp hr'
    subst hq'
    intro hq1
    exact h r' hr'mem ⟨hq1, by rw [hll]; simpa using hr'l⟩
  rcases hl with hl | hl
  · subst hl
    rw [langMap, if_pos rfl, langMap, if_pos rfl, applyOverrideRows_de]
    exact alookup_foldUpserts_not_mem _ (key "de" rfl)
  · subst hl
    rw [langMap, if_neg (by decide), langMap, if_neg (by decide), applyOverrideRows_en]
    exact alookup_foldUpserts_not_mem _ (key "en" rfl)

theorem get_property_overrides_fst (db : DB) (aid : String) :
    (get_property_overrides db aid).1 =
      db.propertyOverrides.filter (fun r => r.scopeKey = aid) := rfl

theorem get_property_overrides_snd (db : DB) (aid c : String)
    (hcat : articleCategory db aid = some c) :
    (get_property_overrides db aid).2 =
      db.categoryOverrides.filter (fun r => r.scopeKey = c) := by
  simp only [get_property_overrides, hcat]

theorem get_properties_for_product_eq (db : DB) (aid : String) :
    get_properties_for_product db aid =
      applyOverrideRows (get_property_overrides db aid).1
        (applyOverrideRows (get_property_overrides db aid).2
          (addBaseProps (db.properties.filter (fun r => r.articleId = aid)) ⟨[], []⟩)) := rfl

theorem exportResolveProps_eq (db : DB) (aid : String) :
    exportResolveProps db aid =
      applyOverrideRows (get_property_overrides db aid).1
        (applyOverrideRowsGuarded (get_property_overrides db aid).2
          (addBaseProps (db.properties.filter (fun r => r.articleId = aid)) ⟨[], []⟩)) := rfl

theorem apply_overrides_eq (db : DB) (aid c : String)
    (props : List ((String × String) × String))
    (hcat : articleCategory db aid = some c) :
    apply_overrides db aid props =
      (db.propertyOverrides.filter (fun r => r.scopeKey = aid)).foldl
        (fun acc r => upsert (r.propName, r.language) r.value acc)
        ((db.categoryOverrides.filter (fun r => r.scopeKey = c)).foldl
          guardedCatStep props) := by
  simp only [apply_overrides, hcat]

/-- C2 (amended): a category override for the article's category whose
(property_name, language) key is not already present only has no effect in
`apply_overrides` (key checked against the argument dictionary) and in the
export path (key checked against the base set); `get_properties_for_product`
by contrast applies category overrides unconditionally, so there the
override's value appears in the resolved result even when no base property
with that key exists. -/
theorem category_override_key_scoping (db db' : DB)
    (article_id p l v c : String)
    (props : List ((String × String) × String))
    (L1 L2 : List OverrideRow)
    (hsplit : db.categoryOverrides = L1 ++ (⟨c, p, v, l⟩ : OverrideRow) :: L2)
    (hdb' : db' = { db with categoryOverrides := L1 ++ L2 })
    (hcat : articleCategory db article_id = some c) :
    ((p, l) ∉ akeys props →
      apply_overrides db article_id props = apply_overrides db' article_id props)
    ∧ ((l = "de" → p ∉ akeys (addBaseProps (db.properties.filter
          (fun r => r.articleId = article_id)) ⟨[], []⟩).de) →
       (l = "en" → p ∉ akeys (addBaseProps (db.properties.filter
          (fun r => r.articleId = article_id)) ⟨[], []⟩).en) →
        exportResolveProps db article_id = exportResolveProps db' article_id)
    ∧ ((l = "de" ∨ l = "en") →
        (∀ r ∈ db.categoryOverrides,
          r.scopeKey = c → r.propName = p → r.language = l → r.value = v) →
        (∀ r ∈ db.propertyOverrides, r.scopeKey = article_id →
          ¬(r.propName = p ∧ r.language = l)) →
        alookup p (langMap (get_properties_for_product db article_id) l) = some v) := by
  have hcat' : articleCategory db' article_id = some c := by
    rw [hdb']; exact hcat
  have hfiltsplit : db.categoryOverrides.filter (fun r => r.scopeKey = c)
      = L1.filter (fun r => r.scopeKey = c)
        ++ (⟨c, p, v, l⟩ : OverrideRow) :: L2.filter (fun r => r.scopeKey = c) := by
    rw [hsplit, List.filter_append, List.filter_cons_of_pos (by simp)]
  have hfilt' : db'.categoryOverrides.filter (fun r => r.scopeKey = c)
      = L1.filter (fun r => r.scopeKey = c) ++ L2.filter (fun r => r.scopeKey = c) := by
    rw [hdb']
    exact List.filter_append ..
  refine ⟨?_, ?_, ?_⟩
  · intro hnotin
    rw [apply_overrides_eq db article_id c props hcat,
      apply_overrides_eq db' article_id c props hcat']
    have hpo : db'.propertyOverrides = db.propertyOverrides := by rw [hdb']
    rw [hpo]
    congr 1
    rw [hfiltsplit, hfilt']
    exact guardedCatFold_skip _ _ _ _ hnotin
  · intro hde hen
    rw [exportResolveProps_eq db article_id, exportResolveProps_eq db' article_id,
      get_property_overrides_fst, get_property_overrides_fst,
      get_property_overrides_snd db article_id c hcat,
      get_property_overrides_snd db' article_id c hcat']
    have hpo : db'.propertyOverrides = db.propertyOverrides := by rw [hdb']
    have hpr : db'.properties = db.properties := by rw [hdb']
    rw [hpo, hpr]
    congr 1
    rw [hfiltsplit, hfilt']
    exact applyOverrideRowsGuarded_skip _ _ _ _
      (fun hl => by rw [show l = "de" from hl] at hde ⊢; exact hde rfl)
      (fun hl => by rw [show l = "en" from hl] at hen ⊢; exact hen rfl)
  · intro hl huniqcat hnoart
    rw [get_properties_for_product_eq, get_property_overrides_fst,
      get_property_overrides_snd db article_id c hcat]
    rw [alookup_applyOverrideRows_lang_skip _ _ hl (by
      intro r hr hcontra
      obtain ⟨hrmem, hrscope⟩ := List.mem_filter.mp hr
      exact hnoart r hrmem (by simpa using hrscope) hcontra)]
    refine alookup_applyOverrideRows_lang _ _ hl ?_ ?_
    · refine ⟨⟨c, p, v, l⟩, List.mem_filter.mpr ⟨?_, by simp⟩, rfl, rfl, rfl⟩
      rw [hsplit]
      exact List.mem_append.mpr (Or.inr (List.mem_cons_self _ _))
    · intro r hr hrp hrl
      obtain ⟨hrmem, hrscope⟩ := List.mem_filter.mp hr
      exact huniqcat r hrmem (by simpa using hrscope) hrp hrl

/-- Witness for the amended C2 at a concrete database: removing the
unmatched category override does not change `apply_overrides`, while
`get_properties_for_product` does surface its value as a new key. -/
theorem category_override_key_scoping_witness :
    apply_overrides catOnlyDB "A1" [] = apply_overrides catOnlyDBNoOverride "A1" []
    ∧ exportResolveProps catOnlyDB "A1" = exportResolveProps catOnlyDBNoOverride "A1"
    ∧ alookup "color" (langMap (get_properties_for_product catOnlyDB "A1") "de")
        = some "Blue" := by
  have h := category_override_key_scoping catOnlyDB catOnlyDBNoOverride
    "A1" "color" "de" "Blue" "C" [] [] []
    (by decide) (by decide) (by decide)
  exact ⟨h.1 (by decide), h.2.1 (fun _ => by decide) (fun hl => absurd hl (by decide)),
    h.2.2 (Or.inl rfl) (by decide) (by decide)⟩

/-!
## Markup extractor (`HTMLParser.parse_html_table`, html_parser.py lines 10-66)

BeautifulSoup's parse of a fragment is embedded as an `HtmlDoc`: the cell
texts (`get_text()`) of the rows of each `<table>`, the stray `<tr>` rows
used when no table exists, and the serialized document text `str(soup)` that
the two fallback regular expressions scan. Python `str.strip()` is embedded
as `pyStrip` over the full Unicode whitespace set that `str.isspace()`
recognises.
-/

/-- Python's whitespace test (`str.isspace()`, the character set removed by
`str.strip()` with no argument): a character whose Unicode general category
is Zs or whose bidirectional class is WS, B or S, i.e. the codepoints
U+0009-U+000D, U+001C-U+001F, U+0020, U+0085, U+00A0, U+1680,
U+2000-U+200A, U+2028, U+2029, U+202F, U+205F and U+3000. -/
def pyIsSpace (c : Char) : Bool :=
  (0x09 ≤ c.toNat ∧ c.toNat ≤ 0x0d) ∨ (0x1c ≤ c.toNat ∧ c.toNat ≤ 0x1f)
    ∨ c.toNat = 0x20 ∨ c.toNat = 0x85 ∨ c.toNat = 0xa0 ∨ c.toNat = 0x1680
    ∨ (0x2000 ≤ c.toNat ∧ c.toNat ≤ 0x200a) ∨ c.toNat = 0x2028 ∨ c.toNat = 0x2029
    ∨ c.toNat = 0x202f ∨ c.toNat = 0x205f ∨ c.toNat = 0x3000

/-- Python `s.strip()`: remove leading and trailing whitespace.
(Implemented structurally over the character list so that concrete instances
evaluate inside the kernel; `String.trim` is not kernel-reducible, and
removes only ASCII whitespace.) -/
def pyStrip (s : String) : String :=
  ⟨((s.data.dropWhile pyIsSpace).reverse.dropWhile pyIsSpace).reverse⟩

/-- Python `s.rstrip(':')`: remove every trailing colon. -/
def rstripColons (s : String) : String :=
  ⟨(s.data.reverse.dropWhile (fun c => c == ':')).reverse⟩

/-- The loop body of `HTMLParser._parse_rows` (html_parser.py lines 51-64):
rows with at least two cells contribute cell0 (trimmed, trailing colons
stripped) → cell1 (trimmed), skipping empty names or values. -/
def parseRowStep (properties : List (String × String)) (cells : List String) :
    List (String × String) :=
  match cells with
  | c0 :: c1 :: _ =>
    let property_name := rstripColons (pyStrip c0)
    let property_value := pyStrip c1
    if property_name ≠ "" ∧ property_value ≠ "" then
      upsert property_name property_value properties
    else properties
  | _ => properties

/-- `HTMLParser._parse_rows` (html_parser.py lines 47-66). -/
def parse_rows (rows : List (List String)) : List (String × String) :=
  rows.foldl parseRowStep []

/-- The table loop of `parse_html_table` (html_parser.py lines 26-29):
`properties.update(table_properties)` for each table in order. -/
def tableFold (tables : List (List (List String))) : List (String × String) :=
  tables.foldl (fun properties t => foldUpserts (parse_rows t) properties) []

/-- Python `\w` (ASCII range): letters, digits, underscore. -/
def isWordChar (c : Char) : Bool := c.isAlphanum || c == '_'

/-- The `\s*([^<]+)` tail of both fallback patterns, applied to the maximal
non-'<' run `t` that follows the matched head: the greedy `\s*` eats the
leading whitespace of `t` and `([^<]+)` captures the rest, except that when
`t` is all whitespace `\s*` backtracks one character so that the group
captures the final character. -/
def trailingFreeText (t : List Char) : List Char :=
  let ws := t.takeWhile (fun c => c.isWhitespace)
  if ws.length = t.length then t.drop (t.length - 1) else t.drop ws.length

/-- One attempted match of `(\w+):\s*([^<]+)` at the start of `s`; on
success returns the two captured groups and the rest of the input after the
match. -/
def colonMatchAt (s : List Char) : Option ((String × String) × List Char) :=
  let w := s.takeWhile isWordChar
  if w.isEmpty then none
  else
    match s.drop w.length with
    | c :: rest =>
      if c = ':' then
        let t := rest.takeWhile (fun c => c != '<')
        if t.isEmpty then none
        else some ((⟨w⟩, ⟨trailingFreeText t⟩), rest.drop t.length)
      else none
    | [] => none

/-- `re.findall(r'(\w+):\s*([^<]+)', s)`: scan left to right, advancing one
position on failure and past the whole match on success. The fuel argument
(initially the input length) dominates the number of scan steps. -/
def colonScanAux : Nat → List Char → List (String × String)
  | 0, _ => []
  | _ + 1, [] => []
  | fuel + 1, c :: rest =>
    match colonMatchAt (c :: rest) with
    | some (m, remaining) => m :: colonScanAux fuel remaining
    | none => colonScanAux fuel rest

def colonScan (s : String) : List (String × String) := colonScanAux s.data.length s.data

def strongOpenTag : List Char := ['<', 's', 't', 'r', 'o', 'n', 'g', '>']

def strongCloseTag : List Char := ['<', '/', 's', 't', 'r', 'o', 'n', 'g', '>']

/-- One attempted match of `<strong>([^<]+)</strong>\s*([^<]+)` at the start
of `s`. -/
def strongMatchAt (s : List Char) : Option ((String × String) × List Char) :=
  if strongOpenTag.isPrefixOf s then
    let rest := s.drop strongOpenTag.length
    let t1 := rest.takeWhile (fun c => c != '<')
    if t1.isEmpty then none
    else if strongCloseTag.isPrefixOf (rest.drop t1.length) then
      let rest2 := (rest.drop t1.length).drop strongCloseTag.length
      let t2 := rest2.takeWhile (fun c => c != '<')
      if t2.isEmpty then none
      else some ((⟨t1⟩, ⟨trailingFreeText t2⟩), rest2.drop t2.length)
    else none
  else none

/-- `re.findall(r'<strong>([^<]+)</strong>\s*([^<]+)', s)`. -/
def strongScanAux : Nat → List Char → List (String × String)
  | 0, _ => []
  | _ + 1, [] => []
  | fuel + 1, c :: rest =>
    match strongMatchAt (c :: rest) with
    | some (m, remaining) => m :: strongScanAux fuel remaining
    | none => strongScanAux fuel rest

def strongScan (s : String) : List (String × String) := strongScanAux s.data.length s.data

/-- The BeautifulSoup view of an HTML fragment: per-table row cell texts,
stray `<tr>` rows (used only when there is no `<table>`), and the serialized
document text used by the fallback pattern scan. -/
structure HtmlDoc where
  tables : List (List (List String))
  strayRows : List (List String)
  serialized : String
deriving DecidableEq, Repr

/-- The table part of `parse_html_table` (html_parser.py lines 16-29):
stray rows are parsed as a virtual table only when no real table exists. -/
def tablePhase (doc : HtmlDoc) : List (String × String) :=
  if doc.tables.isEmpty then parse_rows doc.strayRows else tableFold doc.tables

/-- The loop body of the fallback pattern pass (html_parser.py lines 37-43):
a trimmed match is added only when name and value are nonempty and the name
was not captured before. -/
def fallbackStep (properties : List (String × String)) (m : String × String) :
    List (String × String) :=
  let property_name := pyStrip m.1
  let property_value := pyStrip m.2
  if property_name ≠ "" ∧ property_value ≠ "" ∧ property_name ∉ akeys properties then
    upsert property_name property_value properties
  else properties

def fallbackAdd (ms : List (String × String)) (properties : List (String × String)) :
    List (String × String) :=
  ms.foldl fallbackStep properties

/-- `HTMLParser.parse_html_table` (html_parser.py lines 10-45): table scan,
then both fallback patterns over the serialized document. -/
def parse_html_table (doc : HtmlDoc) : List (String × String) :=
  fallbackAdd (colonScan doc.serialized ++ strongScan doc.serialized) (tablePhase doc)

theorem alookup_mem {α β : Type} [DecidableEq α] {k : α} {v : β}
    {ps : List (α × β)} (h : alookup k ps = some v) : (k, v) ∈ ps := by
  induction ps with
  | nil => cases h
  | cons p rest ih =>
    obtain ⟨k₀, v₀⟩ := p
    by_cases h0 : k₀ = k
    · subst h0
      rw [alookup, if_pos rfl] at h
      exact List.mem_cons.mpr (Or.inl (by injection h with h; rw [h]))
    · rw [alookup, if_neg h0] at h
      exact List.mem_cons.mpr (Or.inr (ih h))

theorem nodup_akeys_value_unique {α β : Type} {k : α} {v v' : β}
    {ps : List (α × β)} (h : (akeys ps).Nodup)
    (h1 : (k, v) ∈ ps) (h2 : (k, v') ∈ ps) : v = v' := by
  induction ps with
  | nil => cases h1
  | cons p rest ih =>
    rw [akeys_cons] at h
    have hknotrest : p.1 ∉ akeys rest := (List.nodup_cons.mp h).1
    rcases List.mem_cons.mp h1 with e1 | m1 <;> rcases List.mem_cons.mp h2 with e2 | m2
    · rw [← e1] at e2; injection e2 with _ h; exact h.symm
    · exfalso
      apply hknotrest
      rw [← e1]
      exact List.mem_map.mpr ⟨(k, v'), m2, rfl⟩
    · exfalso
      apply hknotrest
      rw [← e2]
      exact List.mem_map.mpr ⟨(k, v), m1, rfl⟩
    · exact ih (List.nodup_cons.mp h).2 m1 m2

theorem alookup_foldUpserts_of_nodup {α β : Type} [DecidableEq α] {k : α} {v : β}
    {ps : List (α × β)} (m : List (α × β))
    (hnodup : (akeys ps).Nodup) (hk : alookup k ps = some v) :
    alookup k (foldUpserts ps m) = some v := by
  refine alookup_foldUpserts_unique m (alookup_mem hk) ?_
  intro p hp hp1
  obtain ⟨a, b⟩ := p
  simp only at hp1
  subst hp1
  exact nodup_akeys_value_unique hnodup hp (alookup_mem hk)

theorem akeys_upsert_nodup {α β : Type} [DecidableEq α] (k : α) (v : β)
    {m : List (α × β)} (h : (akeys m).Nodup) : (akeys (upsert k v m)).Nodup := by
  by_cases hk : k ∈ akeys m
  · rw [akeys_upsert_of_mem _ hk]; exact h
  · rw [upsert_eq_append_of_not_mem _ hk, akeys_append]
    simp only [akeys, List.map_cons, List.map_nil]
    exact List.Nodup.append h (List.nodup_singleton _)
      (List.disjoint_singleton.mpr hk)

theorem akeys_parseRowStep_nodup (acc : List (String × String)) (cells : List String)
    (h : (akeys acc).Nodup) : (akeys (parseRowStep acc cells)).Nodup := by
  match cells with
  | [] => exact h
  | [c0] => exact h
  | c0 :: c1 :: cs =>
    simp only [parseRowStep]
    by_cases hg : rstripColons (pyStrip c0) ≠ "" ∧ pyStrip c1 ≠ ""
    · rw [if_pos hg]; exact akeys_upsert_nodup _ _ h
    · rw [if_neg hg]; exact h

theorem akeys_parse_rows_foldl_nodup (rows : List (List String))
    (acc : List (String × String)) (h : (akeys acc).Nodup) :
    (akeys (rows.foldl parseRowStep acc)).Nodup := by
  induction rows generalizing acc with
  | nil => exact h
  | cons r rest ih =>
    rw [List.foldl_cons]
    exact ih _ (akeys_parseRowStep_nodup _ _ h)

theorem akeys_parse_rows_nodup (rows : List (List String)) :
    (akeys (parse_rows rows)).Nodup :=
  akeys_parse_rows_foldl_nodup rows [] List.nodup_nil

theorem mem_akeys_upsert_of_mem {α β : Type} [DecidableEq α] {k k' : α} (v : β)
    {m : List (α × β)} (h : k ∈ akeys m) : k ∈ akeys (upsert k' v m) := by
  by_cases hk : k' ∈ akeys m
  · rw [akeys_upsert_of_mem _ hk]; exact h
  · rw [upsert_eq_append_of_not_mem _ hk, akeys_append]
    exact List.mem_append.mpr (Or.inl h)

theorem alookup_fallbackAdd_of_mem (ms : List (String × String))
    (props : List (String × String)) {k : String} (h : k ∈ akeys props) :
    alookup k (fallbackAdd ms props) = alookup k props := by
  induction ms generalizing props with
  | nil => rfl
  | cons m rest ih =>
    show alookup k (fallbackAdd rest (fallbackStep props m)) = alookup k props
    by_cases hg : pyStrip m.1 ≠ "" ∧ pyStrip m.2 ≠ "" ∧ pyStrip m.1 ∉ akeys props
    · have hne : pyStrip m.1 ≠ k := fun he => hg.2.2 (he ▸ h)
      rw [show fallbackStep props m = upsert (pyStrip m.1) (pyStrip m.2) props from by
        rw [fallbackStep, if_pos hg]]
      rw [ih _ (mem_akeys_upsert_of_mem _ h), alookup_upsert_ne _ _ hne]
    · rw [show fallbackStep props m = props from by rw [fallbackStep, if_neg hg]]
      exact ih _ h

theorem mem_akeys_fallbackAdd (ms : List (String × String))
    (props : List (String × String)) {k : String}
    (h : k ∈ akeys (fallbackAdd ms props)) :
    k ∈ akeys props ∨ ∃ p ∈ ms, pyStrip p.1 = k := by
  induction ms generalizing props with
  | nil => exact Or.inl h
  | cons m rest ih =>
    have h' : k ∈ akeys (fallbackAdd rest (fallbackStep props m)) := h
    rcases ih _ h' with hstep | ⟨p, hp, hpk⟩
    · by_cases hg : pyStrip m.1 ≠ "" ∧ pyStrip m.2 ≠ "" ∧ pyStrip m.1 ∉ akeys props
      · rw [show fallbackStep props m = upsert (pyStrip m.1) (pyStrip m.2) props from by
          rw [fallbackStep, if_pos hg]] at hstep
        rw [upsert_eq_append_of_not_mem _ hg.2.2, akeys_append] at hstep
        rcases List.mem_append.mp hstep with hin | hin
        · exact Or.inl hin
        · have : k = pyStrip m.1 := by simpa [akeys] using hin
          exact Or.inr ⟨m, List.mem_cons_self _ _, this.symm⟩
      · rw [show fallbackStep props m = props from by
          rw [fallbackStep, if_neg hg]] at hstep
        exact Or.inl hstep
    · exact Or.inr ⟨p, List.mem_cons_of_mem _ hp, hpk⟩

/-- Two tables that both define property "a". -/
def dupTablesDoc : HtmlDoc :=
  ⟨[[["a", "1"]], [["a", "2"]]], [],
    "<table><tr><td>a</td><td>1</td></tr></table><table><tr><td>a</td><td>2</td></tr></table>"⟩

/-- One table with two rows for the same property "b". -/
def dupRowsDoc : HtmlDoc :=
  ⟨[[["b", "1"], ["b", "2"]]], [],
    "<table><tr><td>b</td><td>1</td></tr><tr><td>b</td><td>2</td></tr></table>"⟩

/-- Counterexample to C3 as stated: a later table REPLACES the value of a key
captured by an earlier table (claim says it never replaces), and within the
row scan a duplicate property name keeps the LAST occurrence (claim says the
first occurrence wins). -/
theorem parse_html_table_first_wins_counterexample :
    parse_html_table dupTablesDoc = [("a", "2")]
    ∧ parse_html_table dupRowsDoc = [("b", "2")] := by
  constructor <;> rfl

/-- C3 (amended): in the table scan, duplicate property names follow
last-occurrence-wins (a row appended at the end determines the value of its
key), and a later table overwrites the values of keys already captured by
earlier tables while keys it does not mention keep their earlier values;
only the textual fallback pass is first-match-wins: it never replaces a key
already present, and for a key not yet present the first fallback match with
that (trimmed, nonempty) name determines the value. -/
theorem parse_html_table_merge_amended :
    (∀ (rows : List (List String)) (c0 c1 : String) (cs : List String),
      rstripColons (pyStrip c0) ≠ "" → pyStrip c1 ≠ "" →
      alookup (rstripColons (pyStrip c0)) (parse_rows (rows ++ [c0 :: c1 :: cs]))
        = some (pyStrip c1))
    ∧ (∀ (ts : List (List (List String))) (t : List (List String))
        (sr : List (List String)) (s k v : String),
        alookup k (parse_rows t) = some v →
        alookup k (tablePhase ⟨ts ++ [t], sr, s⟩) = some v)
    ∧ (∀ (ts : List (List (List String))) (t : List (List String))
        (sr : List (List String)) (s k : String),
        k ∉ akeys (parse_rows t) →
        alookup k (tablePhase ⟨ts ++ [t], sr, s⟩) = alookup k (tableFold ts))
    ∧ (∀ (doc : HtmlDoc) (k : String), k ∈ akeys (tablePhase doc) →
        alookup k (parse_html_table doc) = alookup k (tablePhase doc))
    ∧ (∀ (ms1 ms2 : List (String × String)) (n v : String)
        (props : List (String × String)),
        pyStrip n ≠ "" → pyStrip v ≠ "" → pyStrip n ∉ akeys props →
        (∀ p ∈ ms1, pyStrip p.1 ≠ pyStrip n) →
        alookup (pyStrip n) (fallbackAdd (ms1 ++ (n, v) :: ms2) props)
          = some (pyStrip v)) := by
  have htableapp : ∀ (ts : List (List (List String))) (t : List (List String))
      (sr : List (List String)) (s : String),
      tablePhase ⟨ts ++ [t], sr, s⟩ = foldUpserts (parse_rows t) (tableFold ts) := by
    intro ts t sr s
    rw [tablePhase]
    rw [if_neg (by simp)]
    show (ts ++ [t]).foldl (fun properties t => foldUpserts (parse_rows t) properties) []
        = foldUpserts (parse_rows t) (tableFold ts)
    rw [List.foldl_append, List.foldl_cons, List.foldl_nil]
    rfl
  refine ⟨?_, ?_, ?_, ?_, ?_⟩
  · intro rows c0 c1 cs h1 h2
    rw [parse_rows, List.foldl_append, List.foldl_cons, List.foldl_nil]
    show alookup (rstripColons (pyStrip c0))
      (parseRowStep (rows.foldl parseRowStep []) (c0 :: c1 :: cs)) = some (pyStrip c1)
    rw [show parseRowStep (rows.foldl parseRowStep []) (c0 :: c1 :: cs)
        = upsert (rstripColons (pyStrip c0)) (pyStrip c1) (rows.foldl parseRowStep [])
        from by rw [parseRowStep, if_pos ⟨h1, h2⟩]]
    exact alookup_upsert_self _ _ _
  · intro ts t sr s k v hk
    rw [htableapp]
    exact alookup_foldUpserts_of_nodup _ (akeys_parse_rows_nodup t) hk
  · intro ts t sr s k hk
    rw [htableapp]
    refine alookup_foldUpserts_not_mem _ ?_
    intro p hp he
    exact hk (he ▸ List.mem_map.mpr ⟨p, hp, rfl⟩)
  · intro doc k hk
    exact alookup_fallbackAdd_of_mem _ _ hk
  · intro ms1 ms2 n v props h1 h2 h3 h4
    rw [show fallbackAdd (ms1 ++ (n, v) :: ms2) props
        = fallbackAdd ms2 (fallbackStep (fallbackAdd ms1 props) (n, v)) from by
      rw [fallbackAdd, fallbackAdd, fallbackAdd, List.foldl_append, List.foldl_cons]]
    have hnot : pyStrip n ∉ akeys (fallbackAdd ms1 props) := by
      intro hmem
      rcases mem_akeys_fallbackAdd ms1 props hmem with h | ⟨p, hp, hpk⟩
      · exact h3 h
      · exact h4 p hp hpk
    rw [show fallbackStep (fallbackAdd ms1 props) (n, v)
        = upsert (pyStrip n) (pyStrip v) (fallbackAdd ms1 props) from by
      rw [fallbackStep, if_pos ⟨h1, h2, hnot⟩]]
    rw [alookup_fallbackAdd_of_mem _ _
      (mem_akeys_of_alookup_eq_some (alookup_upsert_self (pyStrip n) (pyStrip v) _))]
    exact alookup_upsert_self _ _ _

/-- Witness for the amended C3 at concrete inputs: a trailing duplicate row
wins, a later table overwrites, the fallback never replaces a captured key
and keeps the first fallback match. -/
theorem parse_html_table_merge_amended_witness :
    alookup "b" (parse_rows [["b", "1"], ["b", "2"]]) = some "2"
    ∧ alookup "a" (tablePhase ⟨[[["a", "1"]]] ++ [[["a", "2"]]], [], ""⟩) = some "2"
    ∧ alookup "c" (tablePhase ⟨[[["c", "9"]]] ++ [[["a", "2"]]], [], ""⟩)
        = alookup "c" (tableFold [[["c", "9"]]])
    ∧ alookup "Farbe" (parse_html_table ⟨[[["Farbe", "Rot"]]], [], "Farbe: Blau"⟩)
        = alookup "Farbe" (tablePhase ⟨[[["Farbe", "Rot"]]], [], "Farbe: Blau"⟩)
    ∧ alookup "x" (fallbackAdd ([("y", "0")] ++ ("x", "1") :: [("x", "2")]) [])
        = some "1" := by
  have h := parse_html_table_merge_amended
  refine ⟨?_, ?_, ?_, ?_, ?_⟩
  · exact h.1 [["b", "1"]] "b" "2" [] (by decide) (by decide)
  · exact h.2.1 [[["a", "1"]]] [["a", "2"]] [] "" "a" "2" (by decide)
  · exact h.2.2.1 [[["c", "9"]]] [["a", "2"]] [] "" "c" (by decide)
  · exact h.2.2.2.1 ⟨[[["Farbe", "Rot"]]], [], "Farbe: Blau"⟩ "Farbe" (by decide)
  · exact h.2.2.2.2 [("y", "0")] [("x", "2")] "x" "1" [] (by decide) (by decide)
      (by decide) (by decide)

/-!
## Round trip between the export renderer and the markup extractor (claim C7)
-/

/-- The BeautifulSoup (html.parser backend, `convert_charrefs` on) view of
`renderHtmlTable m`: one table, one two-cell row per entry, and the rendered
markup itself as the serialized text the fallback patterns scan (the
regexes run over the document, not over decoded text). Each cell's text is
the entry text as delivered by the parser's character-reference pass, which
feeds every text chunk through `html.unescape`; that decoder is taken as a
parameter, and the round-trip theorem assumes of it exactly what
`html.unescape` guarantees by its early return `if '&' not in s: return s`:
ampersand-free text comes back unchanged. The embedding is valid for entry
texts free of the markup character `<`, which the round-trip theorem also
assumes. -/
def renderDoc (unescape : String → String) (m : List (String × String)) : HtmlDoc :=
  ⟨[m.map (fun p => [unescape p.1, unescape p.2])], [], renderHtmlTable m⟩

theorem colonMatchAt_eq_none {s : List Char} (h : ':' ∉ s) :
    colonMatchAt s = none := by
  rw [colonMatchAt]
  by_cases hw : (s.takeWhile isWordChar).isEmpty
  · rw [if_pos hw]
  · rw [if_neg hw]
    cases hd : s.drop (s.takeWhile isWordChar).length with
    | nil => rfl
    | cons c rest =>
      have hc : c ∈ s := by
        have : c ∈ s.drop (s.takeWhile isWordChar).length := by
          rw [hd]; exact List.mem_cons_self _ _
        exact (List.drop_suffix _ _).subset this
      have : ¬ c = ':' := fun he => h (he ▸ hc)
      simp only [if_neg this]

theorem colonScanAux_eq_nil (fuel : Nat) (s : List Char) (h : ':' ∉ s) :
    colonScanAux fuel s = [] := by
  induction fuel generalizing s with
  | zero => rfl
  | succ n ih =>
    cases s with
    | nil => rfl
    | cons c rest =>
      rw [colonScanAux, colonMatchAt_eq_none h]
      exact ih rest (fun hm => h (List.mem_cons_of_mem _ hm))

/-- True when the character list contains a `<` immediately followed by an
`s` — the only way a `<strong>` pattern match can start. -/
def hasLtS : List Char → Bool
  | [] => false
  | c :: rest => (c == '<' && rest.head? == some 's') || hasLtS rest

theorem hasLtS_cons (c : Char) (rest : List Char) :
    hasLtS (c :: rest) = ((c == '<' && rest.head? == some 's') || hasLtS rest) := rfl

theorem strongMatchAt_eq_none {s : List Char} (h : hasLtS s = false) :
    strongMatchAt s = none := by
  rw [strongMatchAt, if_neg]
  intro hp
  obtain ⟨t, ht⟩ := List.isPrefixOf_iff_prefix.mp hp
  rw [← ht] at h
  simp [strongOpenTag, hasLtS_cons] at h

theorem strongScanAux_eq_nil (fuel : Nat) (s : List Char) (h : hasLtS s = false) :
    strongScanAux fuel s = [] := by
  induction fuel generalizing s with
  | zero => rfl
  | succ n ih =>
    cases s with
    | nil => rfl
    | cons c rest =>
      rw [strongScanAux, strongMatchAt_eq_none h]
      refine ih rest ?_
      rw [hasLtS_cons, Bool.or_eq_false_iff] at h
      exact h.2

theorem hasLtS_of_not_mem {l : List Char} (h : '<' ∉ l) : hasLtS l = false := by
  induction l with
  | nil => rfl
  | cons c rest ih =>
    rw [hasLtS_cons, Bool.or_eq_false_iff]
    refine ⟨?_, ih (fun hm => h (List.mem_cons_of_mem _ hm))⟩
    have : ¬ c = '<' := fun he => h (he ▸ List.mem_cons_self _ _)
    simp [this]

theorem getLast?_ne_of_not_mem {l : List Char} {c : Char} (h : c ∉ l) :
    l.getLast? ≠ some c := by
  intro he
  exact h (List.mem_of_mem_getLast? he)

theorem hasLtS_append_false {a b : List Char}
    (ha : hasLtS a = false) (hla : a.getLast? ≠ some '<')
    (hb : hasLtS b = false) : hasLtS (a ++ b) = false := by
  induction a with
  | nil => exact hb
  | cons x a' ih =>
    rw [List.cons_append, hasLtS_cons, Bool.or_eq_false_iff]
    rw [hasLtS_cons, Bool.or_eq_false_iff] at ha
    cases a' with
    | nil =>
      have hx : ¬ x = '<' := fun he => hla (by rw [he]; rfl)
      exact ⟨by simp [hx], hb⟩
    | cons y a'' =>
      have hla' : (y :: a'').getLast? ≠ some '<' := fun he => hla he
      exact ⟨ha.1, ih ha.2 hla'⟩

theorem getLast?_append_ne {a b : List Char} {c : Char}
    (ha : a.getLast? ≠ some c) (hb : b.getLast? ≠ some c) :
    (a ++ b).getLast? ≠ some c := by
  cases b with
  | nil => simpa using ha
  | cons x xs =>
    rw [List.getLast?_append_of_ne_nil _ (List.cons_ne_nil x xs)]
    exact hb

theorem pApp {a b : List Char}
    (ha : hasLtS a = false ∧ a.getLast? ≠ some '<')
    (hb : hasLtS b = false ∧ b.getLast? ≠ some '<') :
    hasLtS (a ++ b) = false ∧ (a ++ b).getLast? ≠ some '<' :=
  ⟨hasLtS_append_false ha.1 ha.2 hb.1, getLast?_append_ne ha.2 hb.2⟩

theorem mem_data_renderRows (m : List (String × String)) (acc : String) (c : Char)
    (h : c ∈ (m.foldl
      (fun acc p => acc ++ "<tr><td>" ++ p.1 ++ "</td><td>" ++ p.2 ++ "</td></tr>")
      acc).data) :
    c ∈ acc.data ∨ c ∈ "<tr><td></td></tr>".data
      ∨ ∃ p ∈ m, c ∈ p.1.data ∨ c ∈ p.2.data := by
  induction m generalizing acc with
  | nil => exact Or.inl h
  | cons p rest ih =>
    rw [List.foldl_cons] at h
    rcases ih _ h with h1 | h2 | ⟨q, hq, hq2⟩
    · simp only [String.data_append, List.mem_append] at h1
      have ht1 : ∀ x ∈ "<tr><td>".data, x ∈ "<tr><td></td></tr>".data := by decide
      have ht2 : ∀ x ∈ "</td><td>".data, x ∈ "<tr><td></td></tr>".data := by decide
      have ht3 : ∀ x ∈ "</td></tr>".data, x ∈ "<tr><td></td></tr>".data := by decide
      rcases h1 with ((((hacc | h) | h) | h) | h) | h
      · exact Or.inl hacc
      · exact Or.inr (Or.inl (ht1 c h))
      · exact Or.inr (Or.inr ⟨p, List.mem_cons_self _ _, Or.inl h⟩)
      · exact Or.inr (Or.inl (ht2 c h))
      · exact Or.inr (Or.inr ⟨p, List.mem_cons_self _ _, Or.inr h⟩)
      · exact Or.inr (Or.inl (ht3 c h))
    · exact Or.inr (Or.inl h2)
    · exact Or.inr (Or.inr ⟨q, List.mem_cons_of_mem _ hq, hq2⟩)

theorem renderRows_invariant (m : List (String × String)) (acc : String)
    (h1 : hasLtS acc.data = false) (h2 : acc.data.getLast? ≠ some '<')
    (hm : ∀ p ∈ m, '<' ∉ p.1.data ∧ '<' ∉ p.2.data) :
    hasLtS ((m.foldl
      (fun acc p => acc ++ "<tr><td>" ++ p.1 ++ "</td><td>" ++ p.2 ++ "</td></tr>")
      acc).data) = false
    ∧ ((m.foldl
      (fun acc p => acc ++ "<tr><td>" ++ p.1 ++ "</td><td>" ++ p.2 ++ "</td></tr>")
      acc).data).getLast? ≠ some '<' := by
  induction m generalizing acc with
  | nil => exact ⟨h1, h2⟩
  | cons p rest ih =>
    rw [List.foldl_cons]
    have hp := hm p (List.mem_cons_self _ _)
    have hacc' : hasLtS (acc ++ "<tr><td>" ++ p.1 ++ "</td><td>" ++ p.2
        ++ "</td></tr>").data = false
        ∧ ((acc ++ "<tr><td>" ++ p.1 ++ "</td><td>" ++ p.2
        ++ "</td></tr>").data).getLast? ≠ some '<' := by
      have hd : (acc ++ "<tr><td>" ++ p.1 ++ "</td><td>" ++ p.2 ++ "</td></tr>").data
          = ((((acc.data ++ "<tr><td>".data) ++ p.1.data) ++ "</td><td>".data)
            ++ p.2.data) ++ "</td></tr>".data := by
        simp only [String.data_append]
      rw [hd]
      exact pApp (pApp (pApp (pApp (pApp ⟨h1, h2⟩ ⟨by decide, by decide⟩)
        ⟨hasLtS_of_not_mem hp.1, getLast?_ne_of_not_mem hp.1⟩)
        ⟨by decide, by decide⟩)
        ⟨hasLtS_of_not_mem hp.2, getLast?_ne_of_not_mem hp.2⟩)
        ⟨by decide, by decide⟩
    exact ih _ hacc'.1 hacc'.2 (fun q hq => hm q (List.mem_cons_of_mem _ hq))

theorem renderHtmlTable_data (m : List (String × String)) :
    (renderHtmlTable m).data
      = ("<table>".data ++ (m.foldl
          (fun acc p => acc ++ "<tr><td>" ++ p.1 ++ "</td><td>" ++ p.2 ++ "</td></tr>")
          "").data) ++ "</table>".data := by
  rw [renderHtmlTable]
  simp only [String.data_append]

theorem hasLtS_renderHtmlTable (m : List (String × String))
    (hm : ∀ p ∈ m, '<' ∉ p.1.data ∧ '<' ∉ p.2.data) :
    hasLtS (renderHtmlTable m).data = false := by
  rw [renderHtmlTable_data]
  exact (pApp (pApp ⟨by decide, by decide⟩
    (renderRows_invariant m "" (by decide) (by decide) hm))
    ⟨by decide, by decide⟩).1

theorem colon_not_mem_renderHtmlTable (m : List (String × String))
    (hm : ∀ p ∈ m, ':' ∉ p.1.data ∧ ':' ∉ p.2.data) :
    ':' ∉ (renderHtmlTable m).data := by
  rw [renderHtmlTable_data]
  intro h
  rcases List.mem_append.mp h with h | h
  · rcases List.mem_append.mp h with h | h
    · revert h; decide
    · rcases mem_data_renderRows m "" ':' h with h | h | ⟨p, hp, hcase⟩
      · cases h
      · revert h; decide
      · rcases hcase with h | h
        · exact (hm p hp).1 h
        · exact (hm p hp).2 h
  · revert h; decide

theorem rstripColons_eq_self {s : String} (h : ':' ∉ s.data) :
    rstripColons s = s := by
  rw [rstripColons]
  have hd : s.data.reverse.dropWhile (fun c => c == ':') = s.data.reverse := by
    cases hrev : s.data.reverse with
    | nil => rfl
    | cons c t =>
      have hc : c ∈ s.data := by
        rw [← List.mem_reverse, hrev]
        exact List.mem_cons_self _ _
      have hne : ¬ (c == ':') = true := by
        simp only [beq_iff_eq]
        exact fun he => h (he ▸ hc)
      rw [List.dropWhile_cons, if_neg hne]
  rw [hd, List.reverse_reverse]

/-- C7 (amended): re-extracting the rendered HTML property table reproduces
the original mapping when the names are distinct and every name and value is
nonempty, equal to its own (Python, Unicode-whitespace) trimmed form, and
free of the characters `<`, `:` and `&` (the formal reading of "no HTML
markup, no colon-pattern text, no strong-pattern text, no character
references for the parser to decode"); the decoder is quantified over, with
only the property `html.unescape` actually has: it returns ampersand-free
text unchanged. Without the nonempty/trimmed conditions the round trip can
fail, as the counterexample shows. -/
theorem render_extract_roundtrip (unescape : String → String)
    (m : List (String × String))
    (hid : ∀ s : String, '&' ∉ s.data → unescape s = s)
    (hnodup : (akeys m).Nodup)
    (hentries : ∀ p ∈ m, p.1 ≠ "" ∧ p.2 ≠ "" ∧ pyStrip p.1 = p.1 ∧ pyStrip p.2 = p.2
      ∧ ':' ∉ p.1.data ∧ '<' ∉ p.1.data ∧ '&' ∉ p.1.data
      ∧ ':' ∉ p.2.data ∧ '<' ∉ p.2.data ∧ '&' ∉ p.2.data) :
    parse_html_table (renderDoc unescape m) = m := by
  have hcolon : colonScan (renderHtmlTable m) = [] :=
    colonScanAux_eq_nil _ _ (colon_not_mem_renderHtmlTable m (fun p hp => by
      obtain ⟨-, -, -, -, h5, -, -, h8, -, -⟩ := hentries p hp
      exact ⟨h5, h8⟩))
  have hstrong : strongScan (renderHtmlTable m) = [] :=
    strongScanAux_eq_nil _ _ (hasLtS_renderHtmlTable m (fun p hp => by
      obtain ⟨-, -, -, -, -, h6, -, -, h9, -⟩ := hentries p hp
      exact ⟨h6, h9⟩))
  have hmap : m.map (fun p => [unescape p.1, unescape p.2])
      = m.map (fun p => [p.1, p.2]) := by
    refine List.map_congr_left ?_
    intro p hp
    obtain ⟨-, -, -, -, -, -, h7, -, -, h10⟩ := hentries p hp
    rw [hid p.1 h7, hid p.2 h10]
  have hrows : parse_rows (m.map (fun p => [p.1, p.2])) = m := by
    rw [parse_rows, List.foldl_map]
    have hext : m.foldl (fun acc p => parseRowStep acc [p.1, p.2]) []
        = m.foldl (fun acc p => upsert p.1 p.2 acc) [] := by
      refine List.foldl_ext _ _ _ ?_
      intro acc p hp
      obtain ⟨h1, h2, h3, h4, h5, -, -, -, -, -⟩ := hentries p hp
      show parseRowStep acc [p.1, p.2] = upsert p.1 p.2 acc
      rw [parseRowStep]
      have hname : rstripColons (pyStrip p.1) = p.1 := by
        rw [h3]
        exact rstripColons_eq_self h5
      rw [show (if rstripColons (pyStrip p.1) ≠ "" ∧ pyStrip p.2 ≠ "" then
          upsert (rstripColons (pyStrip p.1)) (pyStrip p.2) acc else acc)
          = upsert (rstripColons (pyStrip p.1)) (pyStrip p.2) acc from
        if_pos ⟨by rw [hname]; exact h1, by rw [h4]; exact h2⟩]
      rw [hname, h4]
    rw [hext]
    exact foldUpserts_nil_of_nodup hnodup
  have htable : tablePhase (renderDoc unescape m) = m := by
    show foldUpserts (parse_rows (m.map (fun p => [unescape p.1, unescape p.2]))) [] = m
    rw [hmap, hrows]
    exact foldUpserts_nil_of_nodup hnodup
  show fallbackAdd (colonScan (renderHtmlTable m) ++ strongScan (renderHtmlTable m))
    (tablePhase (renderDoc unescape m)) = m
  rw [hcolon, hstrong, htable]
  rfl

/-- Counterexample to C7 as stated: the mapping [("a", "")] contains no HTML
markup, no colon-pattern text, no strong-pattern text and no ampersand (so
the character-reference decoder acts as the identity here, instantiated as
`id`), yet rendering and re-extracting loses the entry (the extractor drops
rows with an empty value), so the original mapping is not reproduced. -/
theorem render_extract_roundtrip_counterexample :
    parse_html_table (renderDoc id [("a", "")]) = []
    ∧ ([] : List (String × String)) ≠ [("a", "")] :=
  ⟨rfl, by decide⟩

/-- Witness for the amended C7 at a concrete two-entry mapping, with the
identity decoder (which trivially returns ampersand-free text unchanged). -/
theorem render_extract_roundtrip_witness :
    parse_html_table (renderDoc id [("Farbe", "Rot"), ("Material", "PA66")])
      = [("Farbe", "Rot"), ("Material", "PA66")] :=
  render_extract_roundtrip id _ (fun _ _ => rfl) (by decide) (by decide)

/-!
## Name normalizer (`HTMLParser.normalize_property`, html_parser.py lines 68-122)

Typed values are embedded as `NormValue`: numeric results of `float(...)`
are carried as exact rationals (the decimal reading of the matched token;
all magnitudes in this domain are exactly representable). Python `str.lower`
is embedded for the ASCII range plus the German capital umlauts appearing in
this code base's data.
-/

inductive NormValue where
  | str (s : String)
  | num (q : ℚ)
deriving DecidableEq, Repr

/-- Python `str.lower` per character (ASCII plus the German umlauts used by
the vendor label dictionary). -/
def pyLowerChar (c : Char) : Char :=
  if c = 'Ä' then 'ä' else if c = 'Ö' then 'ö' else if c = 'Ü' then 'ü' else c.toLower

def pyLower (s : String) : String := ⟨s.data.map pyLowerChar⟩

/-- Python `s.replace(' ', '_')`. -/
def underscoreSpaces (s : String) : String :=
  ⟨s.data.map (fun c => if c = ' ' then '_' else c)⟩

/-- The fixed German vendor-label dictionary `de_to_standard`
(html_parser.py lines 71-87). -/
def de_to_standard : List (String × String) :=
  [("Farbe", "color"),
   ("Material", "material"),
   ("Zugkraft", "tensile_strength"),
   ("Max. Bündeldurchmesser", "max_bundle_diameter"),
   ("Min. Bündeldurchmesser", "min_bundle_diameter"),
   ("Temperaturbeständigkeit", "temperature_resistance"),
   ("Min. Installationstemperatur", "min_installation_temperature"),
   ("Zulassungen", "certifications"),
   ("Verpackungseinheit", "packaging_unit"),
   ("Isolationsmaterial", "insulation_material"),
   ("Werkstoff des Leiters", "conductor_material"),
   ("Länge", "length"),
   ("Nenngröße", "nominal_size"),
   ("Kabelquerschnitt", "cable_cross_section")]

/-- Name canonicalization (html_parser.py lines 89-94): dictionary lookup
with lowercase-underscore fallback for "de", lowercase-underscore for every
other language. -/
def standardizeName (property_name language : String) : String :=
  if language = "de" then
    (alookup property_name de_to_standard).getD (underscoreSpaces (pyLower property_name))
  else underscoreSpaces (pyLower property_name)

def digitsToNat (l : List Char) : Nat :=
  l.foldl (fun acc c => acc * 10 + (c.toNat - '0'.toNat)) 0

/-- The exact rational value of a decimal literal `digits[.digits]` — the
real-number reading of Python's `float(...)` on the matched token. -/
def parseDecimal (l : List Char) : ℚ :=
  let ip := l.takeWhile Char.isDigit
  match l.drop ip.length with
  | '.' :: frac => (digitsToNat ip : ℚ) + (digitsToNat frac : ℚ) / (10 : ℚ) ^ frac.length
  | _ => (digitsToNat ip : ℚ)

/-- One match of `(\d+(?:[,.]\d+)?)\s*(\w+)?` starting at a digit: the
numeric token (group 1) and the optional unit token (group 2). -/
def numMatchAt (s : List Char) : Option (List Char × Option (List Char)) :=
  let d1 := s.takeWhile Char.isDigit
  if d1.isEmpty then none
  else
    let s1 := s.drop d1.length
    let ts :=
      match s1 with
      | c :: rest =>
        if c = ',' ∨ c = '.' then
          let d2 := rest.takeWhile Char.isDigit
          if d2.isEmpty then (d1, s1) else (d1 ++ c :: d2, rest.drop d2.length)
        else (d1, s1)
      | [] => (d1, s1)
    let s3 := ts.2.dropWhile Char.isWhitespace
    let w := s3.takeWhile isWordChar
    some (ts.1, if w.isEmpty then none else some w)

/-- `re.search(r'(\d+(?:[,.]\d+)?)\s*(\w+)?', s)`: the match starting at the
first digit of the string, if any. -/
def numSearch : List Char → Option (List Char × Option (List Char))
  | [] => none
  | c :: rest => if c.isDigit then numMatchAt (c :: rest) else numSearch rest

def expectLit (lit s : List Char) : Option (List Char) :=
  if lit.isPrefixOf s then some (s.drop lit.length) else none

/-- One match of `(-?\d+)\s*°C\s*bis\s*(\+?\d+)\s*°C` starting at the current
position: the two signed-number groups. -/
def tempMatchAt (s : List Char) : Option (List Char × List Char) := do
  let (sign1, s) := match s with
    | '-' :: r => (['-'], r)
    | _ => ([], s)
  let d1 := s.takeWhile Char.isDigit
  if d1.isEmpty then none
  else do
    let s ← expectLit ['°', 'C'] ((s.drop d1.length).dropWhile Char.isWhitespace)
    let s ← expectLit ['b', 'i', 's'] (s.dropWhile Char.isWhitespace)
    let s := s.dropWhile Char.isWhitespace
    let (sign2, s) := match s with
      | '+' :: r => (['+'], r)
      | _ => ([], s)
    let d2 := s.takeWhile Char.isDigit
    if d2.isEmpty then none
    else do
      let _ ← expectLit ['°', 'C'] ((s.drop d2.length).dropWhile Char.isWhitespace)
      some (sign1 ++ d1, sign2 ++ d2)

/-- `re.search` for the temperature-range pattern: try each start position
left to right. -/
def tempSearch : List Char → Option (List Char × List Char)
  | [] => none
  | c :: rest =>
    match tempMatchAt (c :: rest) with
    | some r => some r
    | none => tempSearch rest

/-- The fixed set of dimensioned-numeric standard names
(html_parser.py line 101). -/
def dimensionedNames : List String :=
  ["tensile_strength", "max_bundle_diameter", "min_bundle_diameter", "length"]

/-- `HTMLParser.normalize_property` (html_parser.py lines 68-122). The
`float` conversion of the matched token cannot raise (the token is always
`digits[,.digits]`), so the ValueError branch of the source is dead and the
numeric branch is total here. -/
def normalize_property (property_name property_value language : String) :
    String × NormValue × Option String :=
  let standard_name := standardizeName property_name language
  if standard_name ∈ dimensionedNames then
    match numSearch property_value.data with
    | some (tok, unitTok) =>
      (standard_name,
        NormValue.num (parseDecimal (tok.map (fun c => if c = ',' then '.' else c))),
        unitTok.map (fun u => (⟨u⟩ : String)))
    | none => (standard_name, NormValue.str property_value, none)
  else if standard_name = "temperature_resistance" then
    match tempSearch property_value.data with
    | some (minT, maxT) =>
      (standard_name,
        NormValue.str ((⟨minT⟩ : String) ++ " to " ++ (⟨maxT⟩ : String)), some "°C")
    | none => (standard_name, NormValue.str property_value, none)
  else (standard_name, NormValue.str property_value, none)

/-- The loop body of `detect_new_properties` (html_parser.py lines 136-142):
note the EMPTY STRING passed as language to `normalize_property`. -/
def detectStep (known_properties new_properties : List String)
    (p : String × String) : List String :=
  let std_name := (normalize_property p.1 "" "").1
  if std_name ∉ known_properties then new_properties ++ [std_name]
  else new_properties

/-- `HTMLParser.detect_new_properties` (html_parser.py lines 124-144): every
extracted name is normalized with the EMPTY STRING as language and collected
when the result is not among the known property names. -/
def detect_new_properties (properties_dict : List (String × String))
    (known_properties : List String) : List String :=
  properties_dict.foldl (detectStep known_properties) []

/-- The spec's reading of the numeric-value rule, for comparison with
`normalize_property`: a LEADING numeric token (comma or dot decimals) with an
optional trailing ALPHABETIC unit token; anything else is a parse failure
that keeps the original string with no unit. -/
def specLeadingNumericExtract (property_value : String) : NormValue × Option String :=
  let s := property_value.data
  let d1 := s.takeWhile Char.isDigit
  if d1.isEmpty then (NormValue.str property_value, none)
  else
    let s1 := s.drop d1.length
    let ts :=
      match s1 with
      | c :: rest =>
        if c = ',' ∨ c = '.' then
          let d2 := rest.takeWhile Char.isDigit
          if d2.isEmpty then (d1, s1) else (d1 ++ c :: d2, rest.drop d2.length)
        else (d1, s1)
      | [] => (d1, s1)
    let s3 := ts.2.dropWhile Char.isWhitespace
    let u := s3.takeWhile Char.isAlpha
    (NormValue.num (parseDecimal (ts.1.map (fun c => if c = ',' then '.' else c))),
      if u.isEmpty then none else some (⟨u⟩ : String))

theorem takeWhile_append_all {p : Char → Bool} {l : List Char} (r : List Char)
    (hl : ∀ c ∈ l, p c = true) :
    (l ++ r).takeWhile p = l ++ r.takeWhile p := by
  induction l with
  | nil => rfl
  | cons c t ih =>
    rw [List.cons_append, List.takeWhile_cons, if_pos (hl c (List.mem_cons_self _ _)),
      ih (fun c hc => hl c (List.mem_cons_of_mem _ hc)), List.cons_append]

theorem numSearch_eq_none {s : List Char} (h : ∀ c ∈ s, c.isDigit = false) :
    numSearch s = none := by
  induction s with
  | nil => rfl
  | cons c rest ih =>
    rw [numSearch, if_neg (by rw [h c (List.mem_cons_self _ _)]; exact Bool.false_ne_true)]
    exact ih (fun c hc => h c (List.mem_cons_of_mem _ hc))

theorem numSearch_append {pre r : List Char} (h : ∀ c ∈ pre, c.isDigit = false) :
    numSearch (pre ++ r) = numSearch r := by
  induction pre with
  | nil => rfl
  | cons c t ih =>
    rw [List.cons_append, numSearch,
      if_neg (by rw [h c (List.mem_cons_self _ _)]; exact Bool.false_ne_true)]
    exact ih (fun c hc => h c (List.mem_cons_of_mem _ hc))

theorem not_ws_of_isWordChar {c : Char} (h : isWordChar c = true) :
    c.isWhitespace = false := by
  rw [Bool.eq_false_iff]
  intro hw
  have hc : ((c = ' ' ∨ c = '\t') ∨ c = '\x0d') ∨ c = '\n' := by
    simpa [Char.isWhitespace] using hw
  rcases hc with ((hc | hc) | hc) | hc <;> (subst hc; revert h; decide)

theorem numMatchAt_digits_space_unit (ds us : List Char) (hds : ds ≠ [])
    (hds1 : ∀ c ∈ ds, c.isDigit = true) (hus : us ≠ [])
    (hus1 : ∀ c ∈ us, isWordChar c = true) :
    numMatchAt (ds ++ ' ' :: us) = some (ds, some us) := by
  have hd1 : (ds ++ ' ' :: us).takeWhile Char.isDigit = ds := by
    rw [takeWhile_append_all _ hds1, List.takeWhile_cons, if_neg (by decide),
      List.append_nil]
  have hs3 : (' ' :: us).dropWhile Char.isWhitespace = us := by
    rw [List.dropWhile_cons, if_pos (by decide)]
    cases us with
    | nil => rfl
    | cons u ut =>
      rw [List.dropWhile_cons,
        if_neg (by rw [not_ws_of_isWordChar (hus1 u (List.mem_cons_self _ _))]
                   exact Bool.false_ne_true)]
  have hw : us.takeWhile isWordChar = us := by
    have := takeWhile_append_all (p := isWordChar) ([] : List Char) hus1
    simpa using this
  simp only [numMatchAt]
  rw [hd1, if_neg (by simpa [List.isEmpty_iff] using hds), List.drop_left]
  simp only [if_neg (show ¬(' ' = ',' ∨ ' ' = '.') by decide)]
  rw [hs3, hw, if_neg (by simpa [List.isEmpty_iff] using hus)]

theorem normalize_property_fst (name v lang : String) :
    (normalize_property name v lang).1 = standardizeName name lang := by
  rw [normalize_property]
  split
  · split <;> rfl
  · split
    · split <;> rfl
    · rfl

/-- Counterexample to C5 as stated: for the dimensioned standard name
"length", the raw value "ca. 12 mm" has no LEADING numeric token, so by the
claim the original string should be kept unchanged with no unit; the code's
`re.search` instead finds the first numeric token anywhere and yields the
typed value 12.0 with unit "mm". -/
theorem normalize_leading_token_counterexample :
    normalize_property "Length" "ca. 12 mm" "en"
      = ("length", NormValue.num 12, some "mm")
    ∧ specLeadingNumericExtract "ca. 12 mm" = (NormValue.str "ca. 12 mm", none)
    ∧ NormValue.num 12 ≠ NormValue.str "ca. 12 mm" :=
  ⟨by decide, by decide, by decide⟩

/-- C5 (amended): for the dimensioned-numeric standard names,
`normalize_property` extracts the FIRST numeric token occurring anywhere in
the raw value (not only a leading one), accepting comma or dot as decimal
separator, together with an optional trailing unit token of word characters
(letters, digits, underscore — not only alphabetic); when the value contains
no digit at all the original string is kept unchanged with no unit; and
"1200 N" for tensile_strength yields 1200.0 with unit "N". -/
theorem normalize_property_numeric_amended :
    normalize_property "Zugkraft" "1200 N" "de"
      = ("tensile_strength", NormValue.num 1200, some "N")
    ∧ (∀ (name v lang : String),
        standardizeName name lang ∈ dimensionedNames →
        (∀ c ∈ v.data, c.isDigit = false) →
        normalize_property name v lang
          = (standardizeName name lang, NormValue.str v, none))
    ∧ (∀ (name lang : String) (pre ds us : List Char),
        standardizeName name lang ∈ dimensionedNames →
        (∀ c ∈ pre, c.isDigit = false) →
        ds ≠ [] → (∀ c ∈ ds, c.isDigit = true) →
        us ≠ [] → (∀ c ∈ us, isWordChar c = true) →
        normalize_property name (⟨pre ++ ds ++ ' ' :: us⟩ : String) lang
          = (standardizeName name lang, NormValue.num (digitsToNat ds),
              some (⟨us⟩ : String))) := by
  refine ⟨by decide, ?_, ?_⟩
  · intro name v lang hdim hnodigit
    rw [normalize_property, if_pos hdim, numSearch_eq_none hnodigit]
  · intro name lang pre ds us hdim hpre hds hds1 hus hus1
    rw [normalize_property, if_pos hdim]
    rw [show (⟨pre ++ ds ++ ' ' :: us⟩ : String).data = pre ++ (ds ++ ' ' :: us) from by
      simp]
    rw [numSearch_append hpre]
    obtain ⟨d, dt, hd⟩ : ∃ d dt, ds = d :: dt := by
      cases ds with
      | nil => exact absurd rfl hds
      | cons d dt => exact ⟨d, dt, rfl⟩
    have hdig : d.isDigit = true := hds1 d (by rw [hd]; exact List.mem_cons_self _ _)
    rw [hd, List.cons_append, numSearch, if_pos hdig, ← List.cons_append, ← hd,
      numMatchAt_digits_space_unit ds us hds hds1 hus hus1]
    show (standardizeName name lang,
        NormValue.num (parseDecimal (ds.map (fun c => if c = ',' then '.' else c))),
        some (⟨us⟩ : String))
      = (standardizeName name lang, NormValue.num (digitsToNat ds), some (⟨us⟩ : String))
    have hmap : ds.map (fun c => if c = ',' then '.' else c) = ds := by
      rw [show (ds.map (fun c => if c = ',' then '.' else c)) = ds.map id from
        List.map_congr_left (fun c hc => by
          have : c.isDigit = true := hds1 c hc
          have hne : ¬ c = ',' := fun he => by rw [he] at this; cases this
          rw [if_neg hne, id]), List.map_id]
    rw [hmap]
    have hpd : parseDecimal ds = (digitsToNat ds : ℚ) := by
      rw [parseDecimal]
      have : ds.takeWhile Char.isDigit = ds := by
        have := takeWhile_append_all (p := Char.isDigit) ([] : List Char) hds1
        simpa using this
      rw [this, List.drop_length]
    rw [hpd]

/-- Witness for the amended C5: the no-digit fallback at "abc", and the
first-token extraction at "ca. 12 mm". -/
theorem normalize_property_numeric_amended_witness :
    normalize_property "Zugkraft" "abc" "de"
      = ("tensile_strength", NormValue.str "abc", none)
    ∧ normalize_property "Länge" "ca. 12 mm" "de"
      = ("length", NormValue.num 12, some "mm") := by
  have h := normalize_property_numeric_amended
  constructor
  · exact h.2.1 "Zugkraft" "abc" "de" (by decide) (by decide)
  · have h3 := h.2.2 "Länge" "de" "ca. ".data "12".data "mm".data
      (by decide) (by decide) (by decide) (by decide) (by decide) (by decide)
    have he : (⟨"ca. ".data ++ "12".data ++ ' ' :: "mm".data⟩ : String)
        = "ca. 12 mm" := by decide
    rw [he] at h3
    rw [h3]
    decide

/-- C8: `detect_new_properties` passes the EMPTY STRING as language to
`normalize_property`, so the fixed German label dictionary is never
consulted during detection: every extracted name is normalized to its
lowercased, underscore-joined form, and a known German vendor label such as
"Farbe" is reported under "farbe" even though the import path stores the
standard name "color" for the same label. -/
theorem detect_new_properties_ignores_dictionary :
    (∀ (name : String),
      (normalize_property name "" "").1 = underscoreSpaces (pyLower name))
    ∧ (∀ (props : List (String × String)) (known : List String),
        detect_new_properties props known
          = ((akeys props).map (fun n => underscoreSpaces (pyLower n))).filter
              (fun s => decide (s ∉ known)))
    ∧ detect_new_properties [("Farbe", "Rot")] ["color"] = ["farbe"]
    ∧ (normalize_property "Farbe" "Rot" "de").1 = "color" := by
  have hfst : ∀ (name : String),
      (normalize_property name "" "").1 = underscoreSpaces (pyLower name) := by
    intro name
    rw [normalize_property_fst, standardizeName, if_neg (by decide)]
  refine ⟨hfst, ?_, by decide, by decide⟩
  intro props known
  suffices hgen : ∀ (acc : List String),
      props.foldl (detectStep known) acc
      = acc ++ ((akeys props).map (fun n => underscoreSpaces (pyLower n))).filter
          (fun s => decide (s ∉ known)) by
    have := hgen []
    rw [List.nil_append] at this
    exact this
  induction props with
  | nil => intro acc; simp [akeys]
  | cons p rest ih =>
    intro acc
    rw [List.foldl_cons]
    have hfilter : ((akeys (p :: rest)).map (fun n => underscoreSpaces (pyLower n))).filter
        (fun s => decide (s ∉ known))
        = (if underscoreSpaces (pyLower p.1) ∉ known
            then [underscoreSpaces (pyLower p.1)] else [])
          ++ ((akeys rest).map (fun n => underscoreSpaces (pyLower n))).filter
              (fun s => decide (s ∉ known)) := by
      rw [akeys_cons, List.map_cons, List.filter_cons]
      by_cases hk : underscoreSpaces (pyLower p.1) ∉ known
      · rw [if_pos (decide_eq_true hk), if_pos hk, List.singleton_append]
      · rw [if_neg (by simpa using hk), if_neg hk, List.nil_append]
    by_cases hk : underscoreSpaces (pyLower p.1) ∉ known
    · have hstep : detectStep known acc p = acc ++ [underscoreSpaces (pyLower p.1)] := by
        rw [detectStep]
        rw [show (normalize_property p.1 "" "").1 = underscoreSpaces (pyLower p.1)
          from hfst p.1]
        rw [if_pos hk]
      rw [hstep, ih, hfilter, if_pos hk, List.append_assoc, List.singleton_append]
    · have hstep : detectStep known acc p = acc := by
        rw [detectStep]
        rw [show (normalize_property p.1 "" "").1 = underscoreSpaces (pyLower p.1)
          from hfst p.1]
        rw [if_neg hk]
      rw [hstep, ih, hfilter, if_neg hk, List.nil_append]

/-!
## Attribute mapper (`AttributeMapper`, attribute_mapper.py)

The in-memory cache `self.mappings` is a dict keyed by
(original_name, language). Similarity scores are exact rationals. Rational
order comparisons inside executable definitions go through `ratLtBool`
(cross multiplication on the normalized representation), which is provably
equivalent to `<` on ℚ and evaluates inside the kernel.
-/

def ratLtBool (a b : ℚ) : Bool := decide (a.num * (b.den : ℤ) < b.num * (a.den : ℤ))

theorem ratLtBool_iff (a b : ℚ) : ratLtBool a b = true ↔ a < b := by
  rw [ratLtBool, decide_eq_true_eq]
  exact Rat.lt_def.symm

/-- Python `needle in hay` on strings: contiguous substring test. -/
def isSubstring : List Char → List Char → Bool
  | needle, [] => needle.isEmpty
  | needle, c :: rest => needle.isPrefixOf (c :: rest) || isSubstring needle rest

theorem isSubstring_correct (needle hay : List Char) :
    isSubstring needle hay = true ↔ needle <:+: hay := by
  induction hay with
  | nil =>
    rw [isSubstring, List.isEmpty_iff]
    constructor
    · intro h; rw [h]
    · intro h; exact List.eq_nil_of_infix_nil h
  | cons c rest ih =>
    rw [isSubstring, Bool.or_eq_true, List.isPrefixOf_iff_prefix, ih,
      List.infix_cons_iff]

/-- `AttributeMapper._calculate_similarity` (attribute_mapper.py
lines 114-135): case-insensitive substring check scoring 0.8, else shared
distinct characters over the larger distinct-character count. The quotient
is built with `mkRat` — provably the same rational as the cast division
(`Rat.mkRat_eq_div`) — so that concrete instances evaluate in the kernel. -/
def calculate_similarity (str1 str2 : String) : ℚ :=
  let str1_lower := pyLower str1
  let str2_lower := pyLower str2
  if isSubstring str1_lower.data str2_lower.data
      || isSubstring str2_lower.data str1_lower.data then
    mkRat 4 5
  else
    let common_chars := str1_lower.data.toFinset ∩ str2_lower.data.toFinset
    mkRat common_chars.card
      (max str1_lower.data.toFinset.card str2_lower.data.toFinset.card)

/-- The attribute mapper's in-memory cache. -/
structure MapperState where
  mappings : List ((String × String) × String)
deriving DecidableEq, Repr

/-- `AttributeMapper.add_mapping` (attribute_mapper.py lines 33-60):
`storageOk` models whether the INSERT OR REPLACE and commit succeed; on a
storage exception the function returns False from the except block BEFORE
the cache assignment is reached, so the cache is untouched. On success the
cache receives the new mapping immediately. -/
def add_mapping (storageOk : Bool) (st : MapperState)
    (original_name standard_name language : String) : Bool × MapperState :=
  if storageOk then
    (true, ⟨upsert (original_name, language) standard_name st.mappings⟩)
  else (false, st)

/-- `AttributeMapper.get_standard_name` (attribute_mapper.py lines 62-73). -/
def get_standard_name (st : MapperState) (original_name language : String) : String :=
  (alookup (original_name, language) st.mappings).getD original_name

/-- The flattening `[name for pair in standard_names for name in pair if name]`
(attribute_mapper.py line 95): truthy = non-None and nonempty. -/
def truthyOptList : Option String → List String
  | some s => if s ≠ "" then [s] else []
  | none => []

def flattenStandardNames (standard_names : List (Option String × Option String)) :
    List String :=
  standard_names.foldl (fun acc pair => acc ++ truthyOptList pair.1 ++ truthyOptList pair.2) []

/-- Stable descending insertion by similarity, modeling
`prop_suggestions.sort(key=lambda x: x[1], reverse=True)` (Python's sort is
stable; equal scores keep their original order). -/
def insertDesc (x : String × ℚ) : List (String × ℚ) → List (String × ℚ)
  | [] => [x]
  | y :: rest => if ratLtBool x.2 y.2 then y :: insertDesc x rest else x :: y :: rest

def sortDesc : List (String × ℚ) → List (String × ℚ)
  | [] => []
  | x :: rest => insertDesc x (sortDesc rest)

/-- The per-candidate body of `suggest_mappings` (attribute_mapper.py
lines 97-110): skip candidates already present as an original_name of the
cache (any language); otherwise score every known standard name, keep
scores above 0.6, sort descending, keep the top 3. -/
def suggestStep (st : MapperState) (all_standard_names : List String)
    (suggestions : List (String × List (String × ℚ))) (prop_name : String) :
    List (String × List (String × ℚ)) :=
  if ¬ st.mappings.any (fun m => m.1.1 == prop_name) then
    let prop_suggestions :=
      (all_standard_names.map
        (fun std => (std, calculate_similarity prop_name std))).filter
        (fun x => ratLtBool (mkRat 3 5) x.2)
    upsert prop_name ((sortDesc prop_suggestions).take 3) suggestions
  else suggestions

/-- `AttributeMapper.suggest_mappings` (attribute_mapper.py lines 75-112). -/
def suggest_mappings (st : MapperState)
    (standard_names : List (Option String × Option String))
    (property_names : List String) : List (String × List (String × ℚ)) :=
  property_names.foldl (suggestStep st (flattenStandardNames standard_names)) []

theorem isSubstring_nil_left (l : List Char) : isSubstring [] l = true :=
  (isSubstring_correct [] l).mpr List.nil_infix

theorem mkRat45_eq : mkRat 4 5 = (0.8 : ℚ) := by
  norm_num [Rat.mkRat_eq_div]

theorem mkRat35_eq : mkRat 3 5 = (0.6 : ℚ) := by
  norm_num [Rat.mkRat_eq_div]

theorem calculate_similarity_if_false {s1 s2 : String}
    (h : (isSubstring (pyLower s1).data (pyLower s2).data
      || isSubstring (pyLower s2).data (pyLower s1).data) = false) :
    calculate_similarity s1 s2
      = mkRat ((pyLower s1).data.toFinset ∩ (pyLower s2).data.toFinset).card
          (max (pyLower s1).data.toFinset.card (pyLower s2).data.toFinset.card) := by
  rw [calculate_similarity]
  simp only [h]
  rfl

theorem calculate_similarity_if_true {s1 s2 : String}
    (h : (isSubstring (pyLower s1).data (pyLower s2).data
      || isSubstring (pyLower s2).data (pyLower s1).data) = true) :
    calculate_similarity s1 s2 = 0.8 := by
  rw [calculate_similarity]
  simp only [h, if_true]
  exact mkRat45_eq

/-- C10: `_calculate_similarity` is total with values in [0, 1], symmetric
in its arguments, returns 0.8 through the substring branch whenever either
argument is empty (the empty string is a substring of everything), and the
division branch is only reached with a positive denominator. -/
theorem calculate_similarity_props :
    (∀ s1 s2 : String,
      0 ≤ calculate_similarity s1 s2 ∧ calculate_similarity s1 s2 ≤ 1)
    ∧ (∀ s1 s2 : String, calculate_similarity s1 s2 = calculate_similarity s2 s1)
    ∧ (∀ s1 s2 : String, s1 = "" ∨ s2 = "" → calculate_similarity s1 s2 = 0.8)
    ∧ (∀ s1 s2 : String,
        (isSubstring (pyLower s1).data (pyLower s2).data
          || isSubstring (pyLower s2).data (pyLower s1).data) = false →
        0 < max (pyLower s1).data.toFinset.card (pyLower s2).data.toFinset.card) := by
  have hpos : ∀ s1 s2 : String,
      (isSubstring (pyLower s1).data (pyLower s2).data
        || isSubstring (pyLower s2).data (pyLower s1).data) = false →
      0 < max (pyLower s1).data.toFinset.card (pyLower s2).data.toFinset.card := by
    intro s1 s2 h
    rw [Bool.or_eq_false_iff] at h
    have hne : (pyLower s1).data ≠ [] := by
      intro he
      rw [he] at h
      rw [isSubstring_nil_left] at h
      exact Bool.noConfusion h.1
    obtain ⟨c, t, hct⟩ : ∃ c t, (pyLower s1).data = c :: t := by
      cases hd : (pyLower s1).data with
      | nil => exact absurd hd hne
      | cons c t => exact ⟨c, t, rfl⟩
    have hcard : 0 < (pyLower s1).data.toFinset.card := by
      refine Finset.card_pos.mpr ⟨c, ?_⟩
      rw [List.mem_toFinset, hct]
      exact List.mem_cons_self _ _
    exact lt_of_lt_of_le hcard (le_max_left _ _)
  refine ⟨?_, ?_, ?_, hpos⟩
  · intro s1 s2
    by_cases hc : (isSubstring (pyLower s1).data (pyLower s2).data
        || isSubstring (pyLower s2).data (pyLower s1).data) = true
    · rw [calculate_similarity_if_true hc]
      norm_num
    · rw [Bool.not_eq_true] at hc
      rw [calculate_similarity_if_false hc, Rat.mkRat_eq_div]
      constructor
      · exact div_nonneg (by positivity) (Nat.cast_nonneg _)
      · have hm := hpos s1 s2 hc
        rw [div_le_one (by exact_mod_cast hm)]
        have hle : ((pyLower s1).data.toFinset ∩ (pyLower s2).data.toFinset).card
            ≤ max (pyLower s1).data.toFinset.card (pyLower s2).data.toFinset.card :=
          le_trans (Finset.card_le_card (Finset.inter_subset_left)) (le_max_left _ _)
        exact_mod_cast hle
  · intro s1 s2
    rw [calculate_similarity, calculate_similarity, Bool.or_comm,
      Finset.inter_comm, Nat.max_comm]
  · intro s1 s2 h
    rcases h with h | h
    · subst h
      refine calculate_similarity_if_true ?_
      rw [show (pyLower "").data = [] from rfl, isSubstring_nil_left]
      rfl
    · subst h
      refine calculate_similarity_if_true ?_
      rw [show (pyLower "").data = [] from rfl, isSubstring_nil_left, Bool.or_true]

/-- Witness for C10: the empty-string branch at ("", "abc") and the positive
denominator at ("ab", "cd"). -/
theorem calculate_similarity_props_witness :
    calculate_similarity "" "abc" = 0.8
    ∧ 0 < max (pyLower "ab").data.toFinset.card (pyLower "cd").data.toFinset.card := by
  have h := calculate_similarity_props
  exact ⟨h.2.2.1 "" "abc" (Or.inl rfl), h.2.2.2 "ab" "cd" (by decide)⟩

/-- C9: when the underlying storage write raises, `add_mapping` returns
False and leaves the in-memory cache unchanged, so every subsequent
`get_standard_name` lookup is unchanged; on success it returns True and the
new mapping is visible immediately. -/
theorem add_mapping_failure_leaves_cache :
    (∀ (st : MapperState) (o s l : String),
      (add_mapping false st o s l).1 = false ∧ (add_mapping false st o s l).2 = st)
    ∧ (∀ (st : MapperState) (o s l o' l' : String),
        get_standard_name (add_mapping false st o s l).2 o' l'
          = get_standard_name st o' l')
    ∧ (∀ (st : MapperState) (o s l : String),
        (add_mapping true st o s l).1 = true
        ∧ get_standard_name (add_mapping true st o s l).2 o l = s) := by
  refine ⟨fun st o s l => ⟨rfl, rfl⟩, fun st o s l o' l' => rfl,
    fun st o s l => ⟨rfl, ?_⟩⟩
  show (alookup (o, l) (upsert (o, l) s st.mappings)).getD o = s
  rw [alookup_upsert_self]
  rfl

theorem mem_insertDesc {x y : String × ℚ} {l : List (String × ℚ)} :
    y ∈ insertDesc x l ↔ y = x ∨ y ∈ l := by
  induction l with
  | nil => simp [insertDesc]
  | cons z rest ih =>
    rw [insertDesc]
    by_cases hlt : ratLtBool x.2 z.2 = true
    · rw [if_pos hlt]
      constructor
      · intro hm
        rcases List.mem_cons.mp hm with hm | hm
        · exact Or.inr (List.mem_cons.mpr (Or.inl hm))
        · rcases ih.mp hm with hm | hm
          · exact Or.inl hm
          · exact Or.inr (List.mem_cons.mpr (Or.inr hm))
      · intro hm
        rcases hm with hm | hm
        · exact List.mem_cons.mpr (Or.inr (ih.mpr (Or.inl hm)))
        · rcases List.mem_cons.mp hm with hm | hm
          · exact List.mem_cons.mpr (Or.inl hm)
          · exact List.mem_cons.mpr (Or.inr (ih.mpr (Or.inr hm)))
    · rw [if_neg hlt, List.mem_cons]

theorem length_insertDesc (x : String × ℚ) (l : List (String × ℚ)) :
    (insertDesc x l).length = l.length + 1 := by
  induction l with
  | nil => rfl
  | cons z rest ih =>
    rw [insertDesc]
    by_cases hlt : ratLtBool x.2 z.2 = true
    · rw [if_pos hlt, List.length_cons, ih, List.length_cons]
    · rw [if_neg hlt, List.length_cons, List.length_cons]

theorem mem_sortDesc {y : String × ℚ} {l : List (String × ℚ)} :
    y ∈ sortDesc l ↔ y ∈ l := by
  induction l with
  | nil => rfl
  | cons x rest ih =>
    rw [sortDesc, mem_insertDesc, ih, List.mem_cons]

theorem length_sortDesc (l : List (String × ℚ)) : (sortDesc l).length = l.length := by
  induction l with
  | nil => rfl
  | cons x rest ih =>
    rw [sortDesc, length_insertDesc, ih, List.length_cons]

theorem pairwise_insertDesc {x : String × ℚ} {l : List (String × ℚ)}
    (h : l.Pairwise (fun a b => b.2 ≤ a.2)) :
    (insertDesc x l).Pairwise (fun a b => b.2 ≤ a.2) := by
  induction l with
  | nil => exact List.pairwise_singleton _ _
  | cons y rest ih =>
    rw [List.pairwise_cons] at h
    rw [insertDesc]
    by_cases hlt : ratLtBool x.2 y.2 = true
    · rw [if_pos hlt]
      rw [List.pairwise_cons]
      refine ⟨?_, ih h.2⟩
      intro b hb
      rcases mem_insertDesc.mp hb with hb | hb
      · rw [hb]
        exact le_of_lt ((ratLtBool_iff _ _).mp hlt)
      · exact h.1 b hb
    · rw [if_neg hlt]
      have hyx : y.2 ≤ x.2 := by
        by_contra hcon
        exact hlt ((ratLtBool_iff _ _).mpr (lt_of_not_le hcon))
      rw [List.pairwise_cons]
      refine ⟨?_, List.pairwise_cons.mpr h⟩
      intro b hb
      rcases List.mem_cons.mp hb with hb | hb
      · rw [hb]; exact hyx
      · exact le_trans (h.1 b hb) hyx

theorem pairwise_sortDesc (l : List (String × ℚ)) :
    (sortDesc l).Pairwise (fun a b => b.2 ≤ a.2) := by
  induction l with
  | nil => exact List.Pairwise.nil
  | cons x rest ih => exact pairwise_insertDesc ih

theorem alookup_upsert_cases {α β : Type} [DecidableEq α] {k k' : α} {v : β}
    {m : List (α × β)} {l : β} (h : alookup k (upsert k' v m) = some l) :
    (k = k' ∧ l = v) ∨ alookup k m = some l := by
  by_cases he : k = k'
  · subst he
    rw [alookup_upsert_self] at h
    exact Or.inl ⟨rfl, (Option.some.injEq _ _ ▸ h).symm⟩
  · rw [alookup_upsert_ne _ _ (fun hx => he hx.symm)] at h
    exact Or.inr h

/-- The shape invariant of every value stored by `suggestStep`. -/
def goodSuggestionList (l : List (String × ℚ)) : Prop :=
  l.length ≤ 3 ∧ (∀ x ∈ l, (0.6 : ℚ) < x.2) ∧ l.Pairwise (fun a b => b.2 ≤ a.2)

theorem goodSuggestionList_of_step (prop : String) (all : List String) :
    goodSuggestionList
      ((sortDesc ((all.map (fun std => (std, calculate_similarity prop std))).filter
        (fun x => ratLtBool (mkRat 3 5) x.2))).take 3) := by
  refine ⟨List.length_take_le _ _, ?_, ?_⟩
  · intro x hx
    have hx' := List.take_subset _ _ hx
    rw [mem_sortDesc] at hx'
    have := List.of_mem_filter hx'
    have h36 := (ratLtBool_iff _ _).mp this
    rwa [mkRat35_eq] at h36
  · exact (pairwise_sortDesc _).sublist (List.take_sublist _ _)

theorem alookup_suggestFold_guard (st : MapperState) (all : List String)
    (ns : List String) (acc : List (String × List (String × ℚ)))
    {cand : String} {l : List (String × ℚ)}
    (h : alookup cand (ns.foldl (suggestStep st all) acc) = some l) :
    alookup cand acc = some l
    ∨ (st.mappings.any (fun m => m.1.1 == cand)) = false := by
  induction ns generalizing acc with
  | nil => exact Or.inl h
  | cons n rest ih =>
    rw [List.foldl_cons] at h
    rcases ih _ h with h' | h'
    · rw [suggestStep] at h'
      by_cases hg : ¬ (st.mappings.any (fun m => m.1.1 == n)) = true
      · rw [if_pos hg] at h'
        rcases alookup_upsert_cases h' with ⟨hkn, _⟩ | h''
        · right
          rw [hkn]
          exact Bool.not_eq_true _ ▸ hg
        · exact Or.inl h''
      · rw [if_neg hg] at h'
        exact Or.inl h'
    · exact Or.inr h'

theorem alookup_suggestFold_shape (st : MapperState) (all : List String)
    (ns : List String) (acc : List (String × List (String × ℚ)))
    {cand : String} {l : List (String × ℚ)}
    (hacc : ∀ c' l', alookup c' acc = some l' → goodSuggestionList l')
    (h : alookup cand (ns.foldl (suggestStep st all) acc) = some l) :
    goodSuggestionList l := by
  induction ns generalizing acc with
  | nil => exact hacc _ _ h
  | cons n rest ih =>
    rw [List.foldl_cons] at h
    refine ih _ ?_ h
    intro c' l' h'
    rw [suggestStep] at h'
    by_cases hg : ¬ (st.mappings.any (fun m => m.1.1 == n)) = true
    · rw [if_pos hg] at h'
      rcases alookup_upsert_cases h' with ⟨_, hv⟩ | h''
      · rw [hv]
        exact goodSuggestionList_of_step n all
      · exact hacc _ _ h''
    · rw [if_neg hg] at h'
      exact hacc _ _ h'

/-- C6: every candidate with an entry in the result of `suggest_mappings`
is not already present as an original_name of the cache (for any language),
and its suggestion list has at most 3 entries, all with similarity strictly
above 0.6, sorted descending by similarity. -/
theorem suggest_mappings_bounds (st : MapperState)
    (standard_names : List (Option String × Option String))
    (property_names : List String) (cand : String) (l : List (String × ℚ))
    (h : alookup cand (suggest_mappings st standard_names property_names) = some l) :
    (∀ pr ∈ st.mappings, pr.1.1 ≠ cand)
    ∧ l.length ≤ 3
    ∧ (∀ x ∈ l, (0.6 : ℚ) < x.2)
    ∧ l.Pairwise (fun a b => b.2 ≤ a.2) := by
  have hguard := alookup_suggestFold_guard st (flattenStandardNames standard_names)
    property_names [] h
  have hshape := alookup_suggestFold_shape st (flattenStandardNames standard_names)
    property_names [] (fun c' l' h' => by cases h') h
  refine ⟨?_, hshape.1, hshape.2.1, hshape.2.2⟩
  rcases hguard with h' | h'
  · cases h'
  · intro pr hpr he
    have := List.any_eq_false.mp h' pr hpr
    rw [he] at this
    simp at this

/-- Witness for C6 at a concrete cache and definition table: the mapped
original "Farbe" gets no entry, the unmapped candidate "Colr" gets two
suggestions above 0.6 in descending order. -/
theorem suggest_mappings_bounds_witness :
    (∀ pr ∈ ([((("Farbe" : String), ("de" : String)), ("color" : String))] :
        List ((String × String) × String)), pr.1.1 ≠ "Colr")
    ∧ ([(("color" : String), (1 : ℚ)), ("colour", mkRat 4 5)] :
        List (String × ℚ)).length ≤ 3
    ∧ (∀ x ∈ ([(("color" : String), (1 : ℚ)), ("colour", mkRat 4 5)] :
        List (String × ℚ)), (0.6 : ℚ) < x.2)
    ∧ ([(("color" : String), (1 : ℚ)), ("colour", mkRat 4 5)] :
        List (String × ℚ)).Pairwise (fun a b => b.2 ≤ a.2) := by
  have h := suggest_mappings_bounds ⟨[(("Farbe", "de"), "color")]⟩
    [(some "color", some "colour")] ["Farbe", "Colr"] "Colr"
    [("color", 1), ("colour", mkRat 4 5)] (by decide)
  exact ⟨h.1, h.2.1, h.2.2.1, h.2.2.2⟩

/-!
## Import pipeline (`ImportWorker.run`, import_worker.py lines 26-145)

The CSV is a header list plus rows of cells keyed by column name; a cell
`some none` models a NaN value, an absent key models a missing column.
BeautifulSoup parsing of a description cell is a parameter
(`bsParse : String → HtmlDoc`), so the theorems hold for every parser
front end.
-/

/-- The CSV view: headers and per-row cells keyed by column name. -/
structure Csv where
  headers : List String
  rows : List (List (String × Option String))
deriving DecidableEq, Repr

/-- `row.get(col, default)`. A NaN cell is treated as a missing value by
this accessor (the source would pass the NaN float through to the product
upsert; no verified claim observes those field values). -/
def rowGetD (row : List (String × Option String)) (col : String)
    (default : Option String) : Option String :=
  match alookup col row with
  | some cell => cell
  | none => default

def mergeField (old incoming : Option String) : Option String :=
  match incoming with
  | some v => some v
  | none => old

/-- `DatabaseManager.store_product` (database_manager.py lines 104-148):
insert on first encounter, partial merge of non-null fields on re-import. -/
def store_product (db : DB) (article_id : String)
    (name price stock category : Option String) : DB :=
  if db.products.any (fun p => p.articleId = article_id) then
    { db with products := db.products.map (fun p =>
        if p.articleId = article_id then
          { p with name := mergeField p.name name, price := mergeField p.price price,
                   stock := mergeField p.stock stock,
                   category := mergeField p.category category }
        else p) }
  else
    { db with products := db.products ++ [⟨article_id, name, price, stock, category⟩] }

def updateFirstProp (article_id property_name language value : String)
    (unit : Option String) : List PropRow → List PropRow
  | [] => []
  | r :: rest =>
    if r.articleId = article_id ∧ r.propName = property_name ∧ r.language = language then
      { r with propValue := value, propUnit := unit } :: rest
    else r :: updateFirstProp article_id property_name language value unit rest

/-- `DatabaseManager.store_property` (database_manager.py lines 150-175):
update the first row matching the natural key (fetchone picks the first
id), else insert. -/
def store_property (db : DB) (article_id property_name property_value : String)
    (property_unit : Option String) (language : String) : DB :=
  if db.properties.any (fun r =>
      r.articleId = article_id ∧ r.propName = property_name ∧ r.language = language) then
    { db with properties := (updateFirstProp article_id property_name language
          property_value property_unit db.properties) }
  else
    { db with properties := (db.properties
          ++ [⟨article_id, property_name, property_value, property_unit, language⟩]) }

/-- The persisted text of a normalized value: `str` of the Python value.
For the integral-valued floats of this domain this is exact ("1200.0");
non-integral floats are rendered as the exact rational (no verified claim
observes those texts). -/
def normValueStr : NormValue → String
  | .str s => s
  | .num q => if q.den = 1 then toString q.num ++ ".0" else toString q

/-- One description cell (import_worker.py lines 99-114 / 117-132):
extract → map → normalize → store, per property. -/
def processLangDesc (mapper : MapperState) (db : DB) (article_id : String)
    (doc : HtmlDoc) (lang : String) : DB :=
  (parse_html_table doc).foldl
    (fun db p =>
      let mapped_name := get_standard_name mapper p.1 lang
      let r := normalize_property mapped_name p.2 lang
      store_property db article_id r.1 (normValueStr r.2.1) r.2.2 lang)
    db

/-- The prioritized article-id header candidates (import_worker.py line 50). -/
def candidateIdColumns : List String := ["p_model", "article_id", "XTINR"]

/-- The article-id column resolution (import_worker.py lines 48-66): first
matching prioritized candidate; otherwise the first column not named XTSOL;
the final Python truthiness check also rejects an empty-named column. -/
def findArticleIdColumn (headers : List String) : Option String :=
  let afterCandidates := candidateIdColumns.find? (fun c => headers.contains c)
  let afterFallback :=
    match afterCandidates with
    | some c => some c
    | none => headers.find? (fun col => col ≠ "XTSOL")
  match afterFallback with
  | some c => if c = "" then none else some c
  | none => none

inductive ImportResult where
  | fatalNoDesc
  | fatalNoIdColumn
  | success (articleCol : String) (db : DB)
deriving DecidableEq, Repr

/-- One row of the import loop (import_worker.py lines 77-136): skip rows
with a missing/NaN article id, upsert the product, process each available
description column. -/
def importRow (bsParse : String → HtmlDoc) (mapper : MapperState) (csv : Csv)
    (idCol : String) (db : DB) (row : List (String × Option String)) : DB :=
  match alookup idCol row with
  | some (some article_id) =>
    let name := rowGetD row "p_name" none
    let price := rowGetD row "p_price" (rowGetD row "p_priceNoTax" none)
    let stock := rowGetD row "p_stock" none
    let category := rowGetD row "p_category" (rowGetD row "category" none)
    let db := store_product db article_id name price stock category
    let db :=
      if "p_desc.de" ∈ csv.headers then
        match alookup "p_desc.de" row with
        | some (some html) => processLangDesc mapper db article_id (bsParse html) "de"
        | _ => db
      else db
    if "p_desc.en" ∈ csv.headers then
      match alookup "p_desc.en" row with
      | some (some html) => processLangDesc mapper db article_id (bsParse html) "en"
      | _ => db
    else db
  | _ => db

/-- `ImportWorker.run` after a successful CSV read (import_worker.py
lines 40-139): fail when neither description column exists, fail when no
usable article-id column is found, otherwise process every row. The
optional new-property detection step only writes PropertyDefinitions, which
are outside the modeled state. -/
def runImport (bsParse : String → HtmlDoc) (mapper : MapperState) (csv : Csv)
    (db : DB) : ImportResult :=
  if "p_desc.de" ∉ csv.headers ∧ "p_desc.en" ∉ csv.headers then .fatalNoDesc
  else
    match findArticleIdColumn csv.headers with
    | none => .fatalNoIdColumn
    | some idCol => .success idCol (csv.rows.foldl (importRow bsParse mapper csv idCol) db)

/-- A CSV whose header has none of the prioritized article-id candidates,
but a usable description column and an ordinary extra column. -/
def fallbackCsv : Csv :=
  ⟨["XTSOL", "foo", "p_desc.de"],
   [[("XTSOL", some "XTSOL"), ("foo", some "A1"), ("p_desc.de", none)]]⟩

/-- Counterexample to C4 as stated: with no prioritized candidate in the
header, the import does NOT fail — it proceeds using the first non-XTSOL
column ("foo") as the article id and processes the row, storing product A1. -/
theorem import_fails_without_candidates_counterexample :
    (∀ c ∈ candidateIdColumns, c ∉ fallbackCsv.headers)
    ∧ runImport (fun _ => ⟨[], [], ""⟩) ⟨[]⟩ fallbackCsv ⟨[], [], [], []⟩
        = .success "foo" ⟨[⟨"A1", none, none, none, none⟩], [], [], []⟩ := by
  exact ⟨by decide, by decide⟩

/-- C4 (amended): when the header contains none of the prioritized
candidates, the import does not fail on that account; it falls back to the
first column not named XTSOL and proceeds with it, processing all rows.
It only aborts when neither description column exists (the earlier
gate), or when the fallback column's name is empty (Python truthiness) —
with a description column present, a non-XTSOL column always exists. -/
theorem import_article_id_resolution (csv : Csv) (bsParse : String → HtmlDoc)
    (mapper : MapperState) (db : DB)
    (hnocand : ∀ c ∈ candidateIdColumns, c ∉ csv.headers) :
    (("p_desc.de" ∉ csv.headers ∧ "p_desc.en" ∉ csv.headers) →
      runImport bsParse mapper csv db = .fatalNoDesc)
    ∧ (("p_desc.de" ∈ csv.headers ∨ "p_desc.en" ∈ csv.headers) →
        (∀ c, csv.headers.find? (fun h => h ≠ "XTSOL") = some c → c ≠ "" →
          runImport bsParse mapper csv db
            = .success c (csv.rows.foldl (importRow bsParse mapper csv c) db))
        ∧ (csv.headers.find? (fun h => h ≠ "XTSOL") = some "" →
            runImport bsParse mapper csv db = .fatalNoIdColumn)) := by
  have hcand : candidateIdColumns.find? (fun c => csv.headers.contains c) = none := by
    rw [List.find?_eq_none]
    intro c hc
    simpa using hnocand c hc
  have hfa : findArticleIdColumn csv.headers
      = match csv.headers.find? (fun col => col ≠ "XTSOL") with
        | some c => if c = "" then none else some c
        | none => none := by
    rw [findArticleIdColumn, hcand]
  constructor
  · intro hnone
    rw [runImport, if_pos hnone]
  · intro hdesc
    have hcon : ¬ ("p_desc.de" ∉ csv.headers ∧ "p_desc.en" ∉ csv.headers) := by
      intro hcon
      rcases hdesc with h | h
      · exact hcon.1 h
      · exact hcon.2 h
    constructor
    · intro c hfind hne
      rw [runImport, if_neg hcon, hfa, hfind]
      show (match (if c = "" then none else some c : Option String) with
        | none => ImportResult.fatalNoIdColumn
        | some idCol => ImportResult.success idCol
            (csv.rows.foldl (importRow bsParse mapper csv idCol) db))
        = ImportResult.success c (csv.rows.foldl (importRow bsParse mapper csv c) db)
      rw [if_neg hne]
    · intro hfind
      rw [runImport, if_neg hcon, hfa, hfind]
      rfl

/-- Witness for the amended C4: with no prioritized candidate, "idcol" is
used and the import succeeds; an empty-named first non-XTSOL column aborts
the import. -/
theorem import_article_id_resolution_witness :
    runImport (fun _ => ⟨[], [], ""⟩) ⟨[]⟩
        ⟨["XTSOL", "idcol", "p_desc.en"], []⟩ ⟨[], [], [], []⟩
      = .success "idcol" ⟨[], [], [], []⟩
    ∧ runImport (fun _ => ⟨[], [], ""⟩) ⟨[]⟩
        ⟨["XTSOL", "", "p_desc.de"], []⟩ ⟨[], [], [], []⟩
      = .fatalNoIdColumn := by
  have h1 := import_article_id_resolution ⟨["XTSOL", "idcol", "p_desc.en"], []⟩
    (fun _ => ⟨[], [], ""⟩) ⟨[]⟩ ⟨[], [], [], []⟩ (by decide)
  have h2 := import_article_id_resolution ⟨["XTSOL", "", "p_desc.de"], []⟩
    (fun _ => ⟨[], [], ""⟩) ⟨[]⟩ ⟨[], [], [], []⟩ (by decide)
  constructor
  · exact (h1.2 (Or.inr (by decide))).1 "idcol" (by decide) (by decide)
  · exact (h2.2 (Or.inl (by decide))).2 (by decide)
